import Mathlib

/-!
# Verification of the hybrid-search fusion engine (`src/catalog/core.py`)

Shallow embedding of `HybridSearch.fuse_results`, `HybridSearch.search` and the
`ChromaVectorDB.query` result normalization.  Scores and distances are modelled
as rationals, document identities as integers (the Python code mixes integer
corpus positions and integer ids in one dict).  The Python `dict` used to
accumulate fused scores is modelled as an insertion-ordered association list
(`upsert` updates an existing key in place and appends a fresh key at the end,
exactly like a Python dict), and Python's stable `sorted` is modelled by a
stable insertion sort.
-/

namespace Catalog

/-- One normalized vector-search result, a Python dict with keys `"id"` and
`"distance"`.  `result.get("id")` may be `None`, and `x.get("distance", 0)`
defaults to `0` when the key is missing; both are modelled with `Option`. -/
structure VecResult where
  id : Option ℤ
  distance : Option ℚ
  deriving DecidableEq

/-- `x.get("distance", 0)` from `fuse_results`. -/
def distOf (r : VecResult) : ℚ := r.distance.getD 0

/-- Insert `x` into `l` keeping elements whose key is strictly larger in front:
the insertion step of a stable descending insertion sort. -/
def insertD (key : α → ℚ) (x : α) : List α → List α
  | [] => [x]
  | h :: t => if key x < key h then h :: insertD key x t else x :: h :: t

/-- Stable sort, descending by `key`: elements with equal keys keep their
original relative order, exactly like Python's `sorted(..., reverse=True)`. -/
def sortD (key : α → ℚ) : List α → List α
  | [] => []
  | x :: xs => insertD key x (sortD key xs)

/-- Stable sort ascending by `key` (Python's `sorted(..., key=...)`); realized
as the descending sort on the negated key, which preserves stability. -/
def sortA (key : α → ℚ) : List α → List α := sortD (fun a => -(key a))

/-- `fused_scores[d] = fused_scores.get(d, 0) + v` on an insertion-ordered
dict: update the entry in place if the key exists, else append it. -/
def upsert : List (ℤ × ℚ) → ℤ → ℚ → List (ℤ × ℚ)
  | [], d, v => [(d, v)]
  | (d0, v0) :: t, d, v =>
    if d0 = d then (d0, v0 + v) :: t else (d0, v0) :: upsert t d v

/-- `fused_scores.get(d, 0)`: the value stored for key `d`, defaulting to 0. -/
def sval : List (ℤ × ℚ) → ℤ → ℚ
  | [], _ => 0
  | (d0, v) :: t, d => if d0 = d then v else sval t d

/-- The keys of the accumulator dict, in insertion order. -/
def keysOf (l : List (ℤ × ℚ)) : List ℤ := l.map Prod.fst

/-- The first loop of `fuse_results`:
`for rank, result in enumerate(sorted_vector): ...` — every result consumes a
rank; a result whose `id` is `None` is skipped, otherwise
`alpha * (1 / (rrf_k + rank + 1))` is accumulated under its id. -/
def vecPhase (alpha rrf_k : ℚ) : ℕ → List VecResult → List (ℤ × ℚ) → List (ℤ × ℚ)
  | _, [], acc => acc
  | rank, res :: rest, acc =>
    match res.id with
    | none => vecPhase alpha rrf_k (rank + 1) rest acc
    | some d =>
        vecPhase alpha rrf_k (rank + 1) rest
          (upsert acc d (alpha * (1 / (rrf_k + (rank : ℚ) + 1))))

/-- The second loop of `fuse_results`:
`for rank, doc_idx in enumerate(sorted_bm25_indices): if bm25_scores[doc_idx] > 0: ...`
— ranks run over the whole descending-sorted index list, but only strictly
positive scores receive `(1 - alpha) * (1 / (rrf_k + rank + 1))` credit. -/
def bmPhase (alpha rrf_k : ℚ) (s : ℕ → ℚ) : ℕ → List ℕ → List (ℤ × ℚ) → List (ℤ × ℚ)
  | _, [], acc => acc
  | rank, i :: rest, acc =>
    if 0 < s i then
      bmPhase alpha rrf_k s (rank + 1) rest
        (upsert acc (i : ℤ) ((1 - alpha) * (1 / (rrf_k + (rank : ℚ) + 1))))
    else bmPhase alpha rrf_k s (rank + 1) rest acc

/-- `bm25_scores[i]` as a total function (indices fed to it come from
`range(len(bm25_scores))`, so the default is never hit). -/
def bmScore (bm : List ℚ) (i : ℕ) : ℚ := bm.getD i 0

/-- The descending-sorted corpus positions
`sorted(range(len(bm25_scores)), key=lambda i: bm25_scores[i], reverse=True)`. -/
def lexOrder (bm : List ℚ) : List ℕ := sortD (bmScore bm) (List.range bm.length)

/-- The accumulated `fused_scores` dict of `HybridSearch.fuse_results`, before
the final sort/truncation.  The `if vector_results:` guard of the source
(false for an empty list) is kept. -/
def fusedMap (vector_results : List VecResult) (bm25_scores : List ℚ)
    (alpha rrf_k : ℚ) : List (ℤ × ℚ) :=
  let acc1 :=
    if vector_results.isEmpty then []
    else vecPhase alpha rrf_k 0 (sortA distOf vector_results) []
  bmPhase alpha rrf_k (bmScore bm25_scores) 0 (lexOrder bm25_scores) acc1

/-- `HybridSearch.fuse_results`: sort the accumulated dict items descending by
fused score (stably, like Python), truncate to `k`, return the ids.  The
source's default `rrf_k=60` is passed explicitly by callers here. -/
def fuse_results (vector_results : List VecResult) (bm25_scores : List ℚ)
    (k : ℕ) (alpha rrf_k : ℚ) : List ℤ :=
  ((sortD Prod.snd (fusedMap vector_results bm25_scores alpha rrf_k)).take k).map
    Prod.fst

/-- Python `str.split()`: split on whitespace runs, dropping empty pieces. -/
def tokenize (s : String) : List String :=
  (s.split Char.isWhitespace).filter (fun t => !(t = ""))

/-- Modelled from the spec: the repository delegates lexical scoring to the
external `rank_bm25.BM25Okapi` library, whose code is not part of the source
tree.  Spec §4.1 pins down the interface: `get_scores(query_tokens)` returns
one score per corpus document, positionally aligned with the corpus ordering,
dense (a document with no term overlap receives an explicit `0.0`), with an
empty corpus yielding an empty-compatible result and an empty query yielding
all-zero scores.  The exact BM25 weighting formula is left open by the spec;
this model scores each document by the number of query tokens it contains,
which satisfies every pinned property (density, positional alignment,
nonnegativity, zero exactly on no-overlap, empty-corpus and empty-query
behavior) — no claim below depends on the numeric weighting itself. -/
def get_scores (corpus : List (List String)) (queryTokens : List String) :
    List ℚ :=
  corpus.map (fun doc => ((queryTokens.filter (fun t => doc.contains t)).length : ℚ))

/-- The state built by `HybridSearch.__init__`: the corpus, tokenized by
`doc.split()`, from which the lexical index is constructed.  `search` only
reads this state. -/
structure HybridSearch where
  corpusTok : List (List String)

/-- `HybridSearch.__init__(vector_db, documents)` (the vector backend itself is
external and enters `search` as a response function). -/
def HybridSearch.init (documents : List String) : HybridSearch :=
  ⟨documents.map tokenize⟩

/-- `HybridSearch.search`: fetch `k*2` candidates from the vector backend,
score the full corpus lexically, fuse with the default `rrf_k = 60`.  The
vector backend (Chroma / sqlite-vec, external I/O) is modelled as the response
function `vq : query ↦ requested count ↦ normalized results`. -/
def HybridSearch.search (hs : HybridSearch) (vq : String → ℕ → List VecResult)
    (query : String) (k : ℕ) (alpha : ℚ) : List ℤ :=
  fuse_results (vq query (k * 2)) (get_scores hs.corpusTok (tokenize query)) k
    alpha 60

/-- Python `str.split("_")` on the character list of a backend id: split at
every underscore, keeping empty pieces, exactly like Python.  (Ids are
modelled as character lists so that the parsing pipeline is fully
computable.) -/
def splitUnd : List Char → List (List Char)
  | [] => [[]]
  | c :: rest =>
    if c = '_' then [] :: splitUnd rest
    else
      match splitUnd rest with
      | [] => [[c]]
      | h :: t => (c :: h) :: t

/-- Python `int(s)` on the extracted suffix: defined only when the suffix is
a nonempty digit string; anything else raises `ValueError`, modelled by
`none`. -/
def pyInt (cs : List Char) : Option ℤ :=
  if cs ≠ [] ∧ cs.all (fun c => c.isDigit) then
    some ((cs.foldl (fun acc c => acc * 10 + (c.toNat - '0'.toNat)) 0 : ℕ) : ℤ)
  else none

/-- The result-normalization loop of `ChromaVectorDB.query`:
`idx = int(doc_id.split("_")[1]) if "_" in doc_id else i` — an id containing
`"_"` has its post-underscore piece parsed by `int` (raising, i.e. `.error`,
when non-numeric), an id without `"_"` silently falls back to the enumeration
index `i`; `dist = distances[i] if i < len(distances) else 0`. -/
def chromaNormalize (distances : List ℚ) :
    ℕ → List (List Char) → Except (List Char) (List VecResult)
  | _, [] => Except.ok []
  | i, doc_id :: rest =>
    let idx : Option ℤ :=
      if '_' ∈ doc_id then pyInt ((splitUnd doc_id).getD 1 [])
      else some (i : ℤ)
    match idx with
    | none => Except.error doc_id
    | some idx =>
        (chromaNormalize distances (i + 1) rest).map
          (fun l => ⟨some idx, some (distances.getD i 0)⟩ :: l)

/-- `ChromaVectorDB.query`'s normalization pass over the raw backend ids and
distances. -/
def ChromaVectorDB.normalize (ids : List (List Char)) (distances : List ℚ) :
    Except (List Char) (List VecResult) :=
  chromaNormalize distances 0 ids

instance : DecidableEq (Except (List Char) (List VecResult)) := fun a b =>
  match a, b with
  | .error x, .error y =>
      if h : x = y then isTrue (by rw [h])
      else isFalse (fun hc => h (Except.error.inj hc))
  | .error _, .ok _ => isFalse (fun hc => Except.noConfusion hc)
  | .ok _, .error _ => isFalse (fun hc => Except.noConfusion hc)
  | .ok x, .ok y =>
      if h : x = y then isTrue (by rw [h])
      else isFalse (fun hc => h (Except.ok.inj hc))

/-! ## Per-identity contribution sums (the spec's RRF formulas) -/

/-- The total vector-side RRF mass the ranked list `lst` (ranks starting at
`rank`) assigns to identity `d`: one `alpha * (1 / (rrf_k + r + 1))` term per
occurrence of `d`.  This is the contribution formula of spec §4.3 steps 1–2. -/
def vContribFrom (alpha rrf_k : ℚ) : ℕ → List VecResult → ℤ → ℚ
  | _, [], _ => 0
  | rank, res :: rest, d =>
      (if res.id = some d then alpha * (1 / (rrf_k + (rank : ℚ) + 1)) else 0) +
        vContribFrom alpha rrf_k (rank + 1) rest d

/-- The total lexical-side RRF mass the ranked position list `lst` assigns to
identity `d` under the code's crediting rule (strictly positive score only). -/
def bContribFrom (alpha rrf_k : ℚ) (s : ℕ → ℚ) : ℕ → List ℕ → ℤ → ℚ
  | _, [], _ => 0
  | rank, i :: rest, d =>
      (if 0 < s i ∧ (i : ℤ) = d then (1 - alpha) * (1 / (rrf_k + (rank : ℚ) + 1)) else 0) +
        bContribFrom alpha rrf_k s (rank + 1) rest d

/-- The credit sum over an already-ranked position list: the entries
`(rank, i)` (ranks starting at the first argument) with `q i` and identity
`↑i = d` each contribute `c rank`.  Used to state the spec-side lexical RRF
formulas. -/
def idRankSumIf (c : ℕ → ℚ) (q : ℕ → Bool) : ℕ → List ℕ → ℤ → ℚ
  | _, [], _ => 0
  | rank, i :: rest, d =>
      (if q i ∧ (i : ℤ) = d then c rank else 0) +
        idRankSumIf c q (rank + 1) rest d

/-- Spec §4.3 steps 1–2: the vector-side contribution to identity `d` — one
`alpha * (1 / (rrf_k + r + 1))` term per occurrence of `d` in the vector
results, `r` being the rank after sorting ascending by distance. -/
def specVecContrib (alpha rrf_k : ℚ) (vr : List VecResult) (d : ℤ) : ℚ :=
  vContribFrom alpha rrf_k 0 (sortA distOf vr) d

/-- Spec §4.3 step 3's ranked lexical sequence: corpus positions sorted
descending by BM25 score, positions with score exactly 0 excluded; ranks are
assigned starting at 0 over this filtered, sorted sequence. -/
def lexRankedNonzero (bm : List ℚ) : List ℕ :=
  (lexOrder bm).filter (fun i => !(decide (bmScore bm i = 0)))

/-- The lexical contribution exactly as claim C1 states it: every position
with nonzero score is credited `(1 - alpha) * (1 / (rrf_k + r + 1))` at its
rank `r` in the zero-excluded ranking. -/
def specLexContrib (alpha rrf_k : ℚ) (bm : List ℚ) (d : ℤ) : ℚ :=
  idRankSumIf (fun r => (1 - alpha) * (1 / (rrf_k + (r : ℚ) + 1)))
    (fun _ => true) 0 (lexRankedNonzero bm) d

/-- The amended lexical contribution: only positions with strictly positive
score receive credit, at their rank in the same zero-excluded ranking. -/
def specLexContribPos (alpha rrf_k : ℚ) (bm : List ℚ) (d : ℤ) : ℚ :=
  idRankSumIf (fun r => (1 - alpha) * (1 / (rrf_k + (r : ℚ) + 1)))
    (fun i => decide (0 < bmScore bm i)) 0 (lexRankedNonzero bm) d

/-- The entries the vector loop builds when no id collides: one
`(id, alpha * (1 / (rrf_k + rank + 1)))` pair per ranked result with a
non-`None` id, in rank order. -/
def vecEntriesFrom (alpha rrf_k : ℚ) : ℕ → List VecResult → List (ℤ × ℚ)
  | _, [] => []
  | rank, res :: rest =>
    match res.id with
    | none => vecEntriesFrom alpha rrf_k (rank + 1) rest
    | some d =>
        (d, alpha * (1 / (rrf_k + (rank : ℚ) + 1))) ::
          vecEntriesFrom alpha rrf_k (rank + 1) rest

/-- The fresh entries the lexical loop appends to the dict: positive-score
positions whose key is not among `ks`, with their ranked credits, in rank
order. -/
def bmFresh (alpha rrf_k : ℚ) (s : ℕ → ℚ) (ks : List ℤ) : ℕ → List ℕ → List (ℤ × ℚ)
  | _, [] => []
  | rank, i :: rest =>
    if 0 < s i ∧ (i : ℤ) ∉ ks then
      ((i : ℤ), (1 - alpha) * (1 / (rrf_k + (rank : ℚ) + 1))) ::
        bmFresh alpha rrf_k s ks (rank + 1) rest
    else bmFresh alpha rrf_k s ks (rank + 1) rest

/-- Every positive-score position with its ranked lexical credit, in rank
order (i.e. `bmFresh` with nothing already present). -/
def posEntries (alpha rrf_k : ℚ) (s : ℕ → ℚ) : ℕ → List ℕ → List (ℤ × ℚ)
  | _, [] => []
  | rank, i :: rest =>
    if 0 < s i then
      ((i : ℤ), (1 - alpha) * (1 / (rrf_k + (rank : ℚ) + 1))) ::
        posEntries alpha rrf_k s (rank + 1) rest
    else posEntries alpha rrf_k s (rank + 1) rest

/-- The vector-only ranking of spec §8: result ids ascending by distance. -/
def vecOnlyRanking (vr : List VecResult) : List ℤ :=
  (sortA distOf vr).filterMap (fun r => r.id)

/-- The lexical-only ranking over positive scores: corpus positions descending
by BM25 score, zero- and negative-score positions excluded. -/
def lexPosRanking (bm : List ℚ) : List ℤ :=
  ((lexOrder bm).filter (fun i => decide (0 < bmScore bm i))).map (fun (i : ℕ) => (i : ℤ))

/-- BM25-descending order restricted to nonzero-scoring positions — the
ordering claims C1/C3 name as stated. -/
def lexNonzeroRanking (bm : List ℚ) : List ℤ :=
  (lexRankedNonzero bm).map (fun (i : ℕ) => (i : ℤ))

/-- Does identity `e` occur among the vector results? -/
def vecHit (vr : List VecResult) (e : ℤ) : Bool :=
  vr.any (fun res => decide (res.id = some e))

/-- Is identity `e` a corpus position with strictly positive BM25 score? -/
def lexHit (bm : List ℚ) (e : ℤ) : Bool :=
  (List.range bm.length).any
    (fun i => decide ((i : ℤ) = e) && decide (0 < bmScore bm i))

/-! ## Sorting lemmas: the stable descending insertion sort -/

theorem insertD_perm (key : α → ℚ) (x : α) (l : List α) :
    List.Perm (insertD key x l) (x :: l) := by
  induction l with
  | nil => simp [insertD]
  | cons h t ih =>
      by_cases hc : key x < key h
      · simpa [insertD, hc] using ((ih.cons h).trans (List.Perm.swap x h t))
      · simp [insertD, hc]

theorem sortD_perm (key : α → ℚ) (l : List α) : List.Perm (sortD key l) l := by
  induction l with
  | nil => simp [sortD]
  | cons x xs ih => exact (insertD_perm key x (sortD key xs)).trans (ih.cons x)

theorem mem_sortD (key : α → ℚ) (l : List α) (a : α) :
    a ∈ sortD key l ↔ a ∈ l := (sortD_perm key l).mem_iff

theorem insertD_pairwise {key : α → ℚ} {l : List α} (x : α)
    (h : l.Pairwise (fun a b => key b ≤ key a)) :
    (insertD key x l).Pairwise (fun a b => key b ≤ key a) := by
  induction l with
  | nil => simp [insertD]
  | cons h0 t ih =>
      rw [List.pairwise_cons] at h
      by_cases hc : key x < key h0
      · rw [insertD, if_pos hc, List.pairwise_cons]
        refine ⟨fun b hb => ?_, ih h.2⟩
        rcases List.mem_cons.1 ((insertD_perm key x t).mem_iff.1 hb) with hb | hb
        · exact hb ▸ le_of_lt hc
        · exact h.1 b hb
      · rw [insertD, if_neg hc, List.pairwise_cons]
        refine ⟨fun b hb => ?_, List.pairwise_cons.2 h⟩
        rcases List.mem_cons.1 hb with hb | hb
        · exact hb ▸ le_of_not_lt hc
        · exact le_trans (h.1 b hb) (le_of_not_lt hc)

theorem sortD_pairwise (key : α → ℚ) (l : List α) :
    (sortD key l).Pairwise (fun a b => key b ≤ key a) := by
  induction l with
  | nil => simp [sortD]
  | cons x xs ih => exact insertD_pairwise x ih

theorem insertD_eq_cons {key : α → ℚ} {l : List α} {x : α}
    (h : ∀ b ∈ l, key b ≤ key x) : insertD key x l = x :: l := by
  cases l with
  | nil => rfl
  | cons h0 t =>
      rw [insertD, if_neg (not_lt.2 (h h0 (List.mem_cons_self h0 t)))]

theorem sortD_eq_self {key : α → ℚ} {l : List α}
    (h : l.Pairwise (fun a b => key b ≤ key a)) : sortD key l = l := by
  induction l with
  | nil => rfl
  | cons x xs ih =>
      rw [List.pairwise_cons] at h
      rw [sortD, ih h.2, insertD_eq_cons h.1]

theorem insertD_filter {key : α → ℚ} {l : List α} (x : α) (p : α → Bool)
    (hs : l.Pairwise (fun a b => key b ≤ key a)) :
    (insertD key x l).filter p =
      if p x then insertD key x (l.filter p) else l.filter p := by
  induction l with
  | nil => by_cases hp : p x <;> simp [insertD, hp]
  | cons h0 t ih =>
      rw [List.pairwise_cons] at hs
      by_cases hc : key x < key h0
      · by_cases hp : p x <;> by_cases hq : p h0 <;>
          simp [insertD, hc, hp, hq, ih hs.2]
      · rw [insertD, if_neg hc]
        by_cases hp : p x
        · rw [List.filter_cons_of_pos hp, if_pos hp]
          refine (insertD_eq_cons fun b hb => ?_).symm
          rcases List.mem_cons.1 (List.mem_filter.1 hb).1 with hb0 | hb0
          · exact hb0 ▸ le_of_not_lt hc
          · exact le_trans (hs.1 b hb0) (le_of_not_lt hc)
        · rw [List.filter_cons_of_neg hp, if_neg hp]

theorem sortD_filter (key : α → ℚ) (p : α → Bool) (l : List α) :
    (sortD key l).filter p = sortD key (l.filter p) := by
  induction l with
  | nil => rfl
  | cons x xs ih =>
      rw [sortD, insertD_filter x p (sortD_pairwise key xs), ih]
      by_cases hp : p x
      · rw [if_pos hp, List.filter_cons_of_pos hp, sortD]
      · rw [if_neg hp, List.filter_cons_of_neg hp]

theorem mem_sortA (key : α → ℚ) (l : List α) (a : α) :
    a ∈ sortA key l ↔ a ∈ l := mem_sortD _ l a

/-! ## Dict (association list) lemmas -/

theorem sval_upsert_self (l : List (ℤ × ℚ)) (d : ℤ) (v : ℚ) :
    sval (upsert l d v) d = sval l d + v := by
  induction l with
  | nil => simp [upsert, sval]
  | cons e t ih =>
      obtain ⟨d0, v0⟩ := e
      by_cases h0 : d0 = d
      · subst h0
        simp [upsert, sval]
      · simp [upsert, sval, h0, ih]

theorem sval_upsert_ne (l : List (ℤ × ℚ)) (d : ℤ) (v : ℚ) {e : ℤ}
    (he : e ≠ d) : sval (upsert l d v) e = sval l e := by
  induction l with
  | nil =>
      simp only [upsert, sval]
      exact if_neg (fun h => he h.symm)
  | cons x t ih =>
      obtain ⟨d0, v0⟩ := x
      by_cases h0 : d0 = d
      · subst h0
        simp only [upsert, if_pos rfl, sval]
        rw [if_neg (fun h => he h.symm), if_neg (fun h => he h.symm)]
      · simp only [upsert, if_neg h0, sval, ih]

theorem upsert_of_not_mem {l : List (ℤ × ℚ)} {d : ℤ} (v : ℚ)
    (h : d ∉ keysOf l) : upsert l d v = l ++ [(d, v)] := by
  induction l with
  | nil => rfl
  | cons x t ih =>
      obtain ⟨d0, v0⟩ := x
      simp only [keysOf, List.map_cons, List.mem_cons] at h
      push_neg at h
      rw [upsert, if_neg (fun hh => h.1 hh.symm), ih (by simpa [keysOf] using h.2)]
      rfl

theorem mem_keysOf_upsert (l : List (ℤ × ℚ)) (d : ℤ) (v : ℚ) (e : ℤ) :
    e ∈ keysOf (upsert l d v) ↔ e ∈ keysOf l ∨ e = d := by
  induction l with
  | nil => simp [upsert, keysOf]
  | cons x t ih =>
      obtain ⟨d0, v0⟩ := x
      by_cases h0 : d0 = d
      · subst h0
        have hu : upsert ((d0, v0) :: t) d0 v = (d0, v0 + v) :: t := by
          simp [upsert]
        rw [hu]
        simp only [keysOf, List.map_cons, List.mem_cons]
        tauto
      · simp only [upsert, if_neg h0, keysOf, List.map_cons, List.mem_cons]
        have ih2 := ih
        simp only [keysOf] at ih2
        rw [ih2]
        tauto

theorem nodup_keysOf_upsert {l : List (ℤ × ℚ)} (d : ℤ) (v : ℚ)
    (h : (keysOf l).Nodup) : (keysOf (upsert l d v)).Nodup := by
  induction l with
  | nil => simp [upsert, keysOf]
  | cons x t ih =>
      obtain ⟨d0, v0⟩ := x
      simp only [keysOf, List.map_cons, List.nodup_cons] at h
      by_cases h0 : d0 = d
      · subst h0
        simpa [upsert, keysOf, List.nodup_cons] using h
      · rw [upsert, if_neg h0]
        simp only [keysOf, List.map_cons, List.nodup_cons]
        refine ⟨fun hc => ?_, ih h.2⟩
        rcases (mem_keysOf_upsert t d v d0).1 hc with hc | hc
        · exact h.1 hc
        · exact h0 hc

theorem sval_eq_zero_of_not_mem {l : List (ℤ × ℚ)} {d : ℤ}
    (h : d ∉ keysOf l) : sval l d = 0 := by
  induction l with
  | nil => rfl
  | cons x t ih =>
      obtain ⟨d0, v0⟩ := x
      simp only [keysOf, List.map_cons, List.mem_cons] at h
      push_neg at h
      rw [sval, if_neg (fun hh => h.1 hh.symm)]
      exact ih (by simpa [keysOf] using h.2)

theorem sval_eq_of_mem {l : List (ℤ × ℚ)} {d : ℤ} {v : ℚ}
    (h : (d, v) ∈ l) (hn : (keysOf l).Nodup) : sval l d = v := by
  induction l with
  | nil => cases h
  | cons x t ih =>
      obtain ⟨d0, v0⟩ := x
      simp only [keysOf, List.map_cons, List.nodup_cons] at hn
      rcases List.mem_cons.1 h with h | h
      · have h1 : d = d0 := congrArg Prod.fst h
        have h2 : v = v0 := congrArg Prod.snd h
        rw [sval, if_pos h1.symm, ← h2]
      · have hd0 : d0 ≠ d := by
          rintro rfl
          exact hn.1 (List.mem_map.2 ⟨(d0, v), h, rfl⟩)
        rw [sval, if_neg hd0]
        exact ih h hn.2

theorem sval_vecPhase (alpha rrf_k : ℚ) (lst : List VecResult) :
    ∀ (rank : ℕ) (acc : List (ℤ × ℚ)) (d : ℤ),
      sval (vecPhase alpha rrf_k rank lst acc) d =
        sval acc d + vContribFrom alpha rrf_k rank lst d := by
  induction lst with
  | nil => intro rank acc d; simp [vecPhase, vContribFrom]
  | cons res rest ih =>
      intro rank acc d
      cases hid : res.id with
      | none => simp [vecPhase, vContribFrom, hid, ih]
      | some d0 =>
          simp only [vecPhase, vContribFrom, hid, ih]
          by_cases hd : d0 = d
          · subst hd
            rw [sval_upsert_self, if_pos rfl]
            ring
          · rw [sval_upsert_ne _ _ _ (fun h => hd h.symm),
              if_neg (fun h => hd (Option.some_inj.1 h)), zero_add]

theorem sval_bmPhase (alpha rrf_k : ℚ) (s : ℕ → ℚ) (lst : List ℕ) :
    ∀ (rank : ℕ) (acc : List (ℤ × ℚ)) (d : ℤ),
      sval (bmPhase alpha rrf_k s rank lst acc) d =
        sval acc d + bContribFrom alpha rrf_k s rank lst d := by
  induction lst with
  | nil => intro rank acc d; simp [bmPhase, bContribFrom]
  | cons i rest ih =>
      intro rank acc d
      by_cases hs : 0 < s i
      · simp only [bmPhase, if_pos hs, bContribFrom, ih]
        by_cases hd : (i : ℤ) = d
        · subst hd
          rw [sval_upsert_self, if_pos ⟨hs, rfl⟩]
          ring
        · rw [sval_upsert_ne _ _ _ (fun h => hd h.symm),
            if_neg (fun h => hd h.2), zero_add]
      · simp [bmPhase, hs, bContribFrom, ih]

theorem mem_keysOf_vecPhase (alpha rrf_k : ℚ) (lst : List VecResult) :
    ∀ (rank : ℕ) (acc : List (ℤ × ℚ)) (e : ℤ),
      e ∈ keysOf (vecPhase alpha rrf_k rank lst acc) ↔
        e ∈ keysOf acc ∨ ∃ res ∈ lst, res.id = some e := by
  induction lst with
  | nil => intro rank acc e; simp [vecPhase]
  | cons res rest ih =>
      intro rank acc e
      cases hid : res.id with
      | none => simp [vecPhase, hid, ih, List.exists_mem_cons_iff]
      | some d0 =>
          simp only [vecPhase, hid, ih, mem_keysOf_upsert,
            List.exists_mem_cons_iff, hid, Option.some_inj]
          constructor
          · rintro ((h | rfl) | h)
            · exact .inl h
            · exact .inr (.inl rfl)
            · exact .inr (.inr h)
          · rintro (h | (rfl | h))
            · exact .inl (.inl h)
            · exact .inl (.inr rfl)
            · exact .inr h

theorem mem_keysOf_bmPhase (alpha rrf_k : ℚ) (s : ℕ → ℚ) (lst : List ℕ) :
    ∀ (rank : ℕ) (acc : List (ℤ × ℚ)) (e : ℤ),
      e ∈ keysOf (bmPhase alpha rrf_k s rank lst acc) ↔
        e ∈ keysOf acc ∨ ∃ i ∈ lst, 0 < s i ∧ (i : ℤ) = e := by
  induction lst with
  | nil => intro rank acc e; simp [bmPhase]
  | cons i rest ih =>
      intro rank acc e
      by_cases hs : 0 < s i
      · simp only [bmPhase, if_pos hs, ih, mem_keysOf_upsert,
          List.exists_mem_cons_iff]
        constructor
        · rintro ((h | rfl) | h)
          · exact .inl h
          · exact .inr (.inl ⟨hs, rfl⟩)
          · exact .inr (.inr h)
        · rintro (h | (⟨-, rfl⟩ | h))
          · exact .inl (.inl h)
          · exact .inl (.inr rfl)
          · exact .inr h
      · simp only [bmPhase, if_neg hs, ih, List.exists_mem_cons_iff]
        constructor
        · rintro (h | h)
          · exact .inl h
          · exact .inr (.inr h)
        · rintro (h | (⟨hc, -⟩ | h))
          · exact .inl h
          · exact absurd hc hs
          · exact .inr h

theorem nodup_keysOf_vecPhase (alpha rrf_k : ℚ) (lst : List VecResult) :
    ∀ (rank : ℕ) (acc : List (ℤ × ℚ)), (keysOf acc).Nodup →
      (keysOf (vecPhase alpha rrf_k rank lst acc)).Nodup := by
  induction lst with
  | nil => intro rank acc h; simpa [vecPhase] using h
  | cons res rest ih =>
      intro rank acc h
      cases hid : res.id with
      | none => simpa [vecPhase, hid] using ih _ _ h
      | some d0 =>
          simp only [vecPhase, hid]
          exact ih _ _ (nodup_keysOf_upsert d0 _ h)

theorem nodup_keysOf_bmPhase (alpha rrf_k : ℚ) (s : ℕ → ℚ) (lst : List ℕ) :
    ∀ (rank : ℕ) (acc : List (ℤ × ℚ)), (keysOf acc).Nodup →
      (keysOf (bmPhase alpha rrf_k s rank lst acc)).Nodup := by
  induction lst with
  | nil => intro rank acc h; simpa [bmPhase] using h
  | cons i rest ih =>
      intro rank acc h
      by_cases hs : 0 < s i
      · simp only [bmPhase, if_pos hs]
        exact ih _ _ (nodup_keysOf_upsert _ _ h)
      · simp only [bmPhase, if_neg hs]
        exact ih _ _ h

/-! ## The fused dict of `fuse_results` -/

theorem fusedMap_eq (vr : List VecResult) (bm : List ℚ) (alpha rrf_k : ℚ) :
    fusedMap vr bm alpha rrf_k =
      bmPhase alpha rrf_k (bmScore bm) 0 (lexOrder bm)
        (vecPhase alpha rrf_k 0 (sortA distOf vr) []) := by
  cases vr <;> rfl

theorem sval_fusedMap (vr : List VecResult) (bm : List ℚ) (alpha rrf_k : ℚ)
    (d : ℤ) :
    sval (fusedMap vr bm alpha rrf_k) d =
      vContribFrom alpha rrf_k 0 (sortA distOf vr) d +
        bContribFrom alpha rrf_k (bmScore bm) 0 (lexOrder bm) d := by
  rw [fusedMap_eq, sval_bmPhase, sval_vecPhase]
  simp [sval]

theorem mem_keysOf_fusedMap (vr : List VecResult) (bm : List ℚ)
    (alpha rrf_k : ℚ) (e : ℤ) :
    e ∈ keysOf (fusedMap vr bm alpha rrf_k) ↔
      (∃ res ∈ vr, res.id = some e) ∨
        ∃ i, i < bm.length ∧ 0 < bmScore bm i ∧ (i : ℤ) = e := by
  rw [fusedMap_eq, mem_keysOf_bmPhase, mem_keysOf_vecPhase]
  simp only [keysOf, List.map_nil, List.not_mem_nil, false_or, lexOrder]
  constructor
  · rintro (⟨res, hres, hid⟩ | ⟨i, hi, hpos, hie⟩)
    · exact .inl ⟨res, (mem_sortA distOf vr res).1 hres, hid⟩
    · exact .inr ⟨i, List.mem_range.1 ((mem_sortD _ _ i).1 hi), hpos, hie⟩
  · rintro (⟨res, hres, hid⟩ | ⟨i, hi, hpos, hie⟩)
    · exact .inl ⟨res, (mem_sortA distOf vr res).2 hres, hid⟩
    · exact .inr ⟨i, (mem_sortD _ _ i).2 (List.mem_range.2 hi), hpos, hie⟩

theorem nodup_keysOf_fusedMap (vr : List VecResult) (bm : List ℚ)
    (alpha rrf_k : ℚ) : (keysOf (fusedMap vr bm alpha rrf_k)).Nodup := by
  rw [fusedMap_eq]
  exact nodup_keysOf_bmPhase _ _ _ _ _ _
    (nodup_keysOf_vecPhase _ _ _ _ _ (by simp [keysOf]))

theorem mem_keysOf_of_mem_fuse (vr : List VecResult) (bm : List ℚ) (k : ℕ)
    (alpha rrf_k : ℚ) {e : ℤ} (h : e ∈ fuse_results vr bm k alpha rrf_k) :
    e ∈ keysOf (fusedMap vr bm alpha rrf_k) := by
  obtain ⟨p, hp, rfl⟩ := List.mem_map.1 h
  exact List.mem_map.2
    ⟨p, (sortD_perm Prod.snd _).mem_iff.1 (List.mem_of_mem_take hp), rfl⟩

theorem fuse_results_pairwise (vr : List VecResult) (bm : List ℚ) (k : ℕ)
    (alpha rrf_k : ℚ) :
    (fuse_results vr bm k alpha rrf_k).Pairwise
      (fun a b => sval (fusedMap vr bm alpha rrf_k) b ≤
        sval (fusedMap vr bm alpha rrf_k) a) := by
  have hval : ∀ p ∈ (sortD Prod.snd (fusedMap vr bm alpha rrf_k)).take k,
      sval (fusedMap vr bm alpha rrf_k) p.1 = p.2 := by
    intro p hp
    have hmem : p ∈ fusedMap vr bm alpha rrf_k :=
      (sortD_perm Prod.snd _).mem_iff.1 (List.mem_of_mem_take hp)
    obtain ⟨d, v⟩ := p
    exact sval_eq_of_mem hmem (nodup_keysOf_fusedMap vr bm alpha rrf_k)
  have hpair : ((sortD Prod.snd (fusedMap vr bm alpha rrf_k)).take k).Pairwise
      (fun p q : ℤ × ℚ => q.2 ≤ p.2) :=
    (sortD_pairwise Prod.snd _).sublist (List.take_sublist _ _)
  rw [fuse_results, List.pairwise_map]
  exact hpair.imp_of_mem (fun ha hb hr => by
    rw [hval _ ha, hval _ hb]; exact hr)

/-! ## The rank bridge: code ranks (unfiltered) agree with spec ranks
(zero-excluded) on positions that actually receive credit -/

theorem bContribFrom_eq_zero (alpha rrf_k : ℚ) (s : ℕ → ℚ) {lst : List ℕ}
    (h : ∀ j ∈ lst, ¬0 < s j) :
    ∀ (rank : ℕ) (d : ℤ), bContribFrom alpha rrf_k s rank lst d = 0 := by
  induction lst with
  | nil => intro rank d; rfl
  | cons i rest ih =>
      intro rank d
      rw [bContribFrom, if_neg (fun hc => h i (List.mem_cons_self i rest) hc.1),
        ih (fun j hj => h j (List.mem_cons_of_mem i hj)), zero_add]

theorem idRankSumIf_eq_zero (c : ℕ → ℚ) (q : ℕ → Bool) {lst : List ℕ}
    (h : ∀ j ∈ lst, q j = false) :
    ∀ (rank : ℕ) (d : ℤ), idRankSumIf c q rank lst d = 0 := by
  induction lst with
  | nil => intro rank d; rfl
  | cons i rest ih =>
      intro rank d
      rw [idRankSumIf,
        if_neg (fun hc => by
          have := h i (List.mem_cons_self i rest)
          rw [this] at hc
          exact Bool.false_ne_true hc.1),
        ih (fun j hj => h j (List.mem_cons_of_mem i hj)), zero_add]

theorem bContribFrom_eq_filtered (alpha rrf_k : ℚ) (s : ℕ → ℚ) {lst : List ℕ}
    (hs : lst.Pairwise (fun a b => s b ≤ s a)) :
    ∀ (rank : ℕ) (d : ℤ),
      bContribFrom alpha rrf_k s rank lst d =
        idRankSumIf (fun r => (1 - alpha) * (1 / (rrf_k + (r : ℚ) + 1)))
          (fun i => decide (0 < s i)) rank
          (lst.filter (fun i => !(decide (s i = 0)))) d := by
  induction lst with
  | nil => intro rank d; rfl
  | cons i rest ih =>
      intro rank d
      rw [List.pairwise_cons] at hs
      by_cases hz : s i = 0
      · rw [List.filter_cons_of_neg (by simp [hz]), bContribFrom,
          if_neg (fun hc => by rw [hz] at hc; exact lt_irrefl 0 hc.1),
          bContribFrom_eq_zero alpha rrf_k s
            (fun j hj hpos => absurd (lt_of_lt_of_le hpos ((hs.1 j hj).trans hz.le)) (lt_irrefl 0)),
          idRankSumIf_eq_zero _ _
            (fun j hj => by
              have hj2 := List.mem_filter.1 hj
              have hle : s j ≤ 0 := (hs.1 j hj2.1).trans hz.le
              simpa using not_lt.2 hle),
          zero_add]
      · rw [List.filter_cons_of_pos (by simp [hz]), bContribFrom, idRankSumIf,
          ih hs.2]
        congr 1
        by_cases hp : 0 < s i ∧ (i : ℤ) = d
        · rw [if_pos hp, if_pos (by simpa using hp)]
        · rw [if_neg hp, if_neg (by simpa using hp)]

/-- The fused score of every identity equals the spec's vector formula plus
the amended (positive-credit) lexical formula. -/
theorem sval_fusedMap_spec (vr : List VecResult) (bm : List ℚ)
    (alpha rrf_k : ℚ) (d : ℤ) :
    sval (fusedMap vr bm alpha rrf_k) d =
      specVecContrib alpha rrf_k vr d + specLexContribPos alpha rrf_k bm d := by
  rw [sval_fusedMap, specVecContrib, specLexContribPos, lexRankedNonzero,
    ← bContribFrom_eq_filtered alpha rrf_k (bmScore bm)
      (show (lexOrder bm).Pairwise (fun a b => bmScore bm b ≤ bmScore bm a) from
        sortD_pairwise (bmScore bm) (List.range bm.length))]

/-! ## Sign facts about RRF contributions -/

theorem rrf_term_pos {rrf_k : ℚ} (h : 0 ≤ rrf_k) (r : ℕ) :
    0 < 1 / (rrf_k + (r : ℚ) + 1) := by
  have hr : (0 : ℚ) ≤ (r : ℚ) := Nat.cast_nonneg r
  have : (0 : ℚ) < rrf_k + (r : ℚ) + 1 := by linarith
  exact one_div_pos.2 this

theorem vContribFrom_nonneg {alpha rrf_k : ℚ} (ha : 0 ≤ alpha)
    (hρ : 0 ≤ rrf_k) (lst : List VecResult) :
    ∀ (rank : ℕ) (d : ℤ), 0 ≤ vContribFrom alpha rrf_k rank lst d := by
  induction lst with
  | nil => intro rank d; exact le_refl 0
  | cons res rest ih =>
      intro rank d
      rw [vContribFrom]
      refine add_nonneg ?_ (ih _ d)
      split
      · exact mul_nonneg ha (rrf_term_pos hρ rank).le
      · exact le_refl 0

theorem vContribFrom_pos {alpha rrf_k : ℚ} (ha : 0 < alpha) (hρ : 0 ≤ rrf_k)
    {lst : List VecResult} {d : ℤ} (hocc : ∃ res ∈ lst, res.id = some d) :
    ∀ rank : ℕ, 0 < vContribFrom alpha rrf_k rank lst d := by
  induction lst with
  | nil => exact absurd hocc (by simp)
  | cons res rest ih =>
      intro rank
      rw [vContribFrom]
      rcases List.exists_mem_cons_iff _ _ _ |>.1 hocc with hid | hocc2
      · refine add_pos_of_pos_of_nonneg ?_
          (vContribFrom_nonneg ha.le hρ rest _ d)
        rw [if_pos hid]
        exact mul_pos ha (rrf_term_pos hρ rank)
      · refine add_pos_of_nonneg_of_pos ?_ (ih hocc2 _)
        split
        · exact (mul_pos ha (rrf_term_pos hρ rank)).le
        · exact le_refl 0

theorem bContribFrom_nonneg {alpha rrf_k : ℚ} (ha : alpha ≤ 1)
    (hρ : 0 ≤ rrf_k) (s : ℕ → ℚ) (lst : List ℕ) :
    ∀ (rank : ℕ) (d : ℤ), 0 ≤ bContribFrom alpha rrf_k s rank lst d := by
  induction lst with
  | nil => intro rank d; exact le_refl 0
  | cons i rest ih =>
      intro rank d
      rw [bContribFrom]
      refine add_nonneg ?_ (ih _ d)
      split
      · exact mul_nonneg (by linarith) (rrf_term_pos hρ rank).le
      · exact le_refl 0

theorem bContribFrom_pos {alpha rrf_k : ℚ} (ha : alpha < 1) (hρ : 0 ≤ rrf_k)
    {s : ℕ → ℚ} {lst : List ℕ} {d : ℤ}
    (hocc : ∃ i ∈ lst, 0 < s i ∧ (i : ℤ) = d) :
    ∀ rank : ℕ, 0 < bContribFrom alpha rrf_k s rank lst d := by
  induction lst with
  | nil => exact absurd hocc (by simp)
  | cons i rest ih =>
      intro rank
      rw [bContribFrom]
      rcases List.exists_mem_cons_iff _ _ _ |>.1 hocc with hid | hocc2
      · refine add_pos_of_pos_of_nonneg ?_
          (bContribFrom_nonneg ha.le hρ s rest _ d)
        rw [if_pos hid]
        exact mul_pos (by linarith) (rrf_term_pos hρ rank)
      · refine add_pos_of_nonneg_of_pos ?_ (ih hocc2 _)
        split
        · exact (mul_pos (by linarith) (rrf_term_pos hρ rank)).le
        · exact le_refl 0

theorem bContribFrom_eq_zero_of_no_occ (alpha rrf_k : ℚ) (s : ℕ → ℚ)
    {lst : List ℕ} {d : ℤ} (h : ∀ i ∈ lst, ¬(0 < s i ∧ (i : ℤ) = d)) :
    ∀ rank : ℕ, bContribFrom alpha rrf_k s rank lst d = 0 := by
  induction lst with
  | nil => intro rank; rfl
  | cons i rest ih =>
      intro rank
      rw [bContribFrom, if_neg (h i (List.mem_cons_self i rest)),
        ih (fun j hj => h j (List.mem_cons_of_mem i hj)), zero_add]

theorem vContribFrom_append (alpha rrf_k : ℚ) (l1 l2 : List VecResult) :
    ∀ (rank : ℕ) (d : ℤ),
      vContribFrom alpha rrf_k rank (l1 ++ l2) d =
        vContribFrom alpha rrf_k rank l1 d +
          vContribFrom alpha rrf_k (rank + l1.length) l2 d := by
  induction l1 with
  | nil => intro rank d; simp [vContribFrom]
  | cons res rest ih =>
      intro rank d
      rw [List.cons_append, vContribFrom, vContribFrom, ih]
      have hr : rank + 1 + rest.length = rank + (res :: rest).length := by
        rw [List.length_cons]
        omega
      rw [hr]
      ring

/-! ## Explicit forms of the two accumulation loops -/

theorem keysOf_append (l1 l2 : List (ℤ × ℚ)) :
    keysOf (l1 ++ l2) = keysOf l1 ++ keysOf l2 := List.map_append _ _ _

theorem keysOf_map_fst_fixed (g : (ℤ × ℚ) → (ℤ × ℚ))
    (hg : ∀ e, (g e).1 = e.1) (acc : List (ℤ × ℚ)) :
    keysOf (acc.map g) = keysOf acc := by
  simp only [keysOf, List.map_map]
  exact List.map_congr_left (fun e _ => hg e)

theorem upsert_eq_map {acc : List (ℤ × ℚ)} {d : ℤ} (v : ℚ)
    (hn : (keysOf acc).Nodup) (hd : d ∈ keysOf acc) :
    upsert acc d v = acc.map (fun e => if e.1 = d then (e.1, e.2 + v) else e) := by
  induction acc with
  | nil => cases hd
  | cons x t ih =>
      obtain ⟨d0, v0⟩ := x
      simp only [keysOf, List.map_cons, List.nodup_cons, List.mem_cons] at hn hd
      by_cases h0 : d0 = d
      · subst h0
        have hu : upsert ((d0, v0) :: t) d0 v = (d0, v0 + v) :: t := by
          simp [upsert]
        rw [hu, List.map_cons]
        have ht : t.map (fun e => if e.1 = d0 then (e.1, e.2 + v) else e) = t := by
          refine (List.map_congr_left fun e he => ?_).trans (List.map_id t)
          rw [if_neg fun (hh : e.1 = d0) =>
            hn.1 (hh ▸ (List.mem_map.2 ⟨e, he, rfl⟩ : e.1 ∈ List.map Prod.fst t))]
          rfl
        rw [ht, if_pos rfl]
      · rcases hd with hd | hd
        · exact absurd hd.symm h0
        · rw [upsert, if_neg h0, List.map_cons, if_neg h0,
            ih hn.2 (by simpa [keysOf] using hd)]

theorem bmFresh_congr (alpha rrf_k : ℚ) (s : ℕ → ℚ) {ks1 ks2 : List ℤ} :
    ∀ {lst : List ℕ}, (∀ j ∈ lst, ((j : ℤ) ∈ ks1 ↔ (j : ℤ) ∈ ks2)) →
      ∀ rank : ℕ, bmFresh alpha rrf_k s ks1 rank lst =
        bmFresh alpha rrf_k s ks2 rank lst := by
  intro lst
  induction lst with
  | nil => intro _ rank; rfl
  | cons i rest ih =>
      intro h rank
      have hiff := h i (List.mem_cons_self i rest)
      have htail := fun j hj => h j (List.mem_cons_of_mem i hj)
      by_cases hc : 0 < s i ∧ (i : ℤ) ∉ ks1
      · rw [bmFresh, if_pos hc, bmFresh,
          if_pos ⟨hc.1, fun hm => hc.2 (hiff.2 hm)⟩, ih htail]
      · rw [bmFresh, if_neg hc, bmFresh,
          if_neg (fun hc2 => hc ⟨hc2.1, fun hm => hc2.2 (hiff.1 hm)⟩), ih htail]

theorem bmPhase_eq_append (alpha rrf_k : ℚ) (s : ℕ → ℚ) :
    ∀ (lst : List ℕ) (rank : ℕ) (acc : List (ℤ × ℚ)), lst.Nodup →
      (keysOf acc).Nodup →
      bmPhase alpha rrf_k s rank lst acc =
        acc.map (fun e => (e.1, e.2 + bContribFrom alpha rrf_k s rank lst e.1)) ++
          bmFresh alpha rrf_k s (keysOf acc) rank lst := by
  intro lst
  induction lst with
  | nil =>
      intro rank acc _ _
      simp only [bmPhase, bContribFrom, bmFresh, List.append_nil]
      refine ((List.map_congr_left fun e _ => ?_).trans (List.map_id acc)).symm
      rw [add_zero]
      rfl
  | cons i rest ih =>
      intro rank acc hl hacc
      rw [List.nodup_cons] at hl
      by_cases hsi : 0 < s i
      · by_cases hmem : (i : ℤ) ∈ keysOf acc
        · rw [bmPhase, if_pos hsi, upsert_eq_map _ hacc hmem,
            ih _ (acc.map _) hl.2
              (by rw [keysOf_map_fst_fixed _ (fun e => by split <;> rfl)]; exact hacc),
            keysOf_map_fst_fixed _ (fun e => by split <;> rfl),
            List.map_map]
          have hfresh : bmFresh alpha rrf_k s (keysOf acc) rank (i :: rest) =
              bmFresh alpha rrf_k s (keysOf acc) (rank + 1) rest := by
            rw [bmFresh, if_neg (fun hc => hc.2 hmem)]
          rw [hfresh]
          congr 1
          refine List.map_congr_left fun e _ => ?_
          simp only [Function.comp]
          by_cases he : e.1 = (i : ℤ)
          · rw [if_pos he, bContribFrom, if_pos ⟨hsi, he.symm⟩]
            exact Prod.ext rfl (by ring)
          · rw [if_neg he, bContribFrom, if_neg (fun hc => he hc.2.symm)]
            exact Prod.ext rfl (by ring)
        · have hzero : bContribFrom alpha rrf_k s (rank + 1) rest (i : ℤ) = 0 :=
            bContribFrom_eq_zero_of_no_occ alpha rrf_k s
              (fun j hj hc => hl.1 (by rwa [Nat.cast_inj.1 hc.2] at hj)) _
          have hkeys : keysOf (acc ++
              [((i : ℤ), (1 - alpha) * (1 / (rrf_k + (rank : ℚ) + 1)))]) =
              keysOf acc ++ [(i : ℤ)] := by
            simp [keysOf]
          have hnodup2 : (keysOf acc ++ [(i : ℤ)]).Nodup := by
            refine List.Nodup.append hacc (List.nodup_singleton _) ?_
            intro a ha hb
            rw [List.mem_singleton] at hb
            exact hmem (hb ▸ ha)
          rw [bmPhase, if_pos hsi, upsert_of_not_mem _ hmem,
            ih _ _ hl.2 (by rw [hkeys]; exact hnodup2), hkeys, List.map_append]
          have hfr : bmFresh alpha rrf_k s (keysOf acc ++ [(i : ℤ)])
              (rank + 1) rest = bmFresh alpha rrf_k s (keysOf acc) (rank + 1) rest := by
            refine bmFresh_congr alpha rrf_k s (fun j hj => ?_) _
            have hji : (j : ℤ) ≠ (i : ℤ) :=
              fun hc => hl.1 (by rwa [Nat.cast_inj.1 hc] at hj)
            constructor
            · intro hm
              rcases List.mem_append.1 hm with hm | hm
              · exact hm
              · exact absurd (List.mem_singleton.1 hm) hji
            · exact fun hm => List.mem_append.2 (.inl hm)
          have hsingle : List.map
              (fun e => (e.1, e.2 + bContribFrom alpha rrf_k s (rank + 1) rest e.1))
              [((i : ℤ), (1 - alpha) * (1 / (rrf_k + (rank : ℚ) + 1)))] =
              [((i : ℤ), (1 - alpha) * (1 / (rrf_k + (rank : ℚ) + 1)))] := by
            rw [List.map_singleton, hzero, add_zero]
          have hconsfr : bmFresh alpha rrf_k s (keysOf acc) rank (i :: rest) =
              ((i : ℤ), (1 - alpha) * (1 / (rrf_k + (rank : ℚ) + 1))) ::
                bmFresh alpha rrf_k s (keysOf acc) (rank + 1) rest := by
            rw [bmFresh, if_pos ⟨hsi, hmem⟩]
          rw [hfr, hsingle, hconsfr, List.append_assoc, List.singleton_append]
          congr 1
          refine List.map_congr_left fun e he => ?_
          have hne : e.1 ≠ (i : ℤ) :=
            fun hc => hmem (hc ▸ (List.mem_map.2 ⟨e, he, rfl⟩ : e.1 ∈ keysOf acc))
          rw [bContribFrom, if_neg (fun hc => hne hc.2.symm), zero_add]
      · rw [bmPhase, if_neg hsi, ih _ _ hl.2 hacc]
        have hfr : bmFresh alpha rrf_k s (keysOf acc) rank (i :: rest) =
            bmFresh alpha rrf_k s (keysOf acc) (rank + 1) rest := by
          rw [bmFresh, if_neg (fun hc => hsi hc.1)]
        rw [hfr]
        congr 1
        refine List.map_congr_left fun e _ => ?_
        rw [bContribFrom, if_neg (fun hc => hsi hc.1), zero_add]

theorem vecPhase_eq_append (alpha rrf_k : ℚ) :
    ∀ (lst : List VecResult) (rank : ℕ) (acc : List (ℤ × ℚ)),
      (lst.filterMap (fun r => r.id)).Nodup →
      (∀ e ∈ keysOf acc, ∀ res ∈ lst, res.id ≠ some e) →
      vecPhase alpha rrf_k rank lst acc =
        acc ++ vecEntriesFrom alpha rrf_k rank lst := by
  intro lst
  induction lst with
  | nil => intro rank acc _ _; simp [vecPhase, vecEntriesFrom]
  | cons res rest ih =>
      intro rank acc hv hdisj
      cases hid : res.id with
      | none =>
          have hvt : ((res :: rest).filterMap (fun r => r.id)) =
              rest.filterMap (fun r => r.id) := by
            simp [List.filterMap_cons, hid]
          rw [hvt] at hv
          simp only [vecPhase, vecEntriesFrom, hid]
          exact ih _ acc hv
            (fun e he res2 hres2 => hdisj e he res2 (List.mem_cons_of_mem res hres2))
      | some d =>
          have hvt : ((res :: rest).filterMap (fun r => r.id)) =
              d :: rest.filterMap (fun r => r.id) := by
            simp [List.filterMap_cons, hid]
          rw [hvt, List.nodup_cons] at hv
          have hdm : d ∉ keysOf acc :=
            fun hmem => hdisj d hmem res (List.mem_cons_self _ _) hid
          simp only [vecPhase, vecEntriesFrom, hid]
          rw [upsert_of_not_mem _ hdm, ih _ _ hv.2 ?_, List.append_assoc,
            List.singleton_append]
          intro e he res2 hres2 hid2
          rw [keysOf_append, List.mem_append] at he
          rcases he with he | he
          · exact hdisj e he res2 (List.mem_cons_of_mem res hres2) hid2
          · have : e = d := by simpa [keysOf] using he
            exact hv.1 (this ▸ List.mem_filterMap.2 ⟨res2, hres2, hid2⟩)

theorem keysOf_vecEntriesFrom (alpha rrf_k : ℚ) :
    ∀ (lst : List VecResult) (rank : ℕ),
      keysOf (vecEntriesFrom alpha rrf_k rank lst) =
        lst.filterMap (fun r => r.id) := by
  intro lst
  induction lst with
  | nil => intro rank; rfl
  | cons res rest ih =>
      intro rank
      cases hid : res.id with
      | none => simp [vecEntriesFrom, hid, List.filterMap_cons, ih]
      | some d =>
          simp only [vecEntriesFrom, hid, List.filterMap_cons]
          show d :: keysOf (vecEntriesFrom alpha rrf_k (rank + 1) rest) = _
          exact congrArg (List.cons _) (ih _)

theorem vecEntriesFrom_snd (alpha rrf_k : ℚ) :
    ∀ (lst : List VecResult) (rank : ℕ) (e : ℤ × ℚ),
      e ∈ vecEntriesFrom alpha rrf_k rank lst →
        ∃ j : ℕ, rank ≤ j ∧ e.2 = alpha * (1 / (rrf_k + (j : ℚ) + 1)) := by
  intro lst
  induction lst with
  | nil => intro rank e he; cases he
  | cons res rest ih =>
      intro rank e he
      cases hid : res.id with
      | none =>
          rw [vecEntriesFrom, hid] at he
          obtain ⟨j, hj, hv⟩ := ih _ e he
          exact ⟨j, le_trans (Nat.le_succ rank) hj, hv⟩
      | some d =>
          rw [vecEntriesFrom, hid] at he
          rcases List.mem_cons.1 he with he | he
          · exact ⟨rank, le_refl _, by rw [he]⟩
          · obtain ⟨j, hj, hv⟩ := ih _ e he
            exact ⟨j, le_trans (Nat.le_succ rank) hj, hv⟩

theorem bmFresh_snd (alpha rrf_k : ℚ) (s : ℕ → ℚ) (ks : List ℤ) :
    ∀ (lst : List ℕ) (rank : ℕ) (e : ℤ × ℚ),
      e ∈ bmFresh alpha rrf_k s ks rank lst →
        ∃ j : ℕ, rank ≤ j ∧ e.2 = (1 - alpha) * (1 / (rrf_k + (j : ℚ) + 1)) := by
  intro lst
  induction lst with
  | nil => intro rank e he; cases he
  | cons i rest ih =>
      intro rank e he
      by_cases hc : 0 < s i ∧ (i : ℤ) ∉ ks
      · rw [bmFresh, if_pos hc] at he
        rcases List.mem_cons.1 he with he | he
        · exact ⟨rank, le_refl _, by rw [he]⟩
        · obtain ⟨j, hj, hv⟩ := ih _ e he
          exact ⟨j, le_trans (Nat.le_succ rank) hj, hv⟩
      · rw [bmFresh, if_neg hc] at he
        obtain ⟨j, hj, hv⟩ := ih _ e he
        exact ⟨j, le_trans (Nat.le_succ rank) hj, hv⟩

theorem posEntries_snd (alpha rrf_k : ℚ) (s : ℕ → ℚ) :
    ∀ (lst : List ℕ) (rank : ℕ) (e : ℤ × ℚ),
      e ∈ posEntries alpha rrf_k s rank lst →
        ∃ j : ℕ, rank ≤ j ∧ e.2 = (1 - alpha) * (1 / (rrf_k + (j : ℚ) + 1)) := by
  intro lst
  induction lst with
  | nil => intro rank e he; cases he
  | cons i rest ih =>
      intro rank e he
      by_cases hc : 0 < s i
      · rw [posEntries, if_pos hc] at he
        rcases List.mem_cons.1 he with he | he
        · exact ⟨rank, le_refl _, by rw [he]⟩
        · obtain ⟨j, hj, hv⟩ := ih _ e he
          exact ⟨j, le_trans (Nat.le_succ rank) hj, hv⟩
      · rw [posEntries, if_neg hc] at he
        obtain ⟨j, hj, hv⟩ := ih _ e he
        exact ⟨j, le_trans (Nat.le_succ rank) hj, hv⟩

theorem keysOf_bmFresh (alpha rrf_k : ℚ) (s : ℕ → ℚ) (ks : List ℤ) :
    ∀ (lst : List ℕ) (rank : ℕ),
      keysOf (bmFresh alpha rrf_k s ks rank lst) =
        (lst.filter (fun i => decide (0 < s i) && !(decide ((i : ℤ) ∈ ks)))).map
          (fun (i : ℕ) => (i : ℤ)) := by
  intro lst
  induction lst with
  | nil => intro rank; rfl
  | cons i rest ih =>
      intro rank
      by_cases hc : 0 < s i ∧ (i : ℤ) ∉ ks
      · rw [bmFresh, if_pos hc, List.filter_cons_of_pos (by simpa using hc),
          List.map_cons]
        show (i : ℤ) :: keysOf (bmFresh alpha rrf_k s ks (rank + 1) rest) = _
        exact congrArg (List.cons _) (ih _)
      · rw [bmFresh, if_neg hc,
          List.filter_cons_of_neg (by simpa using hc), ih]

theorem keysOf_posEntries (alpha rrf_k : ℚ) (s : ℕ → ℚ) :
    ∀ (lst : List ℕ) (rank : ℕ),
      keysOf (posEntries alpha rrf_k s rank lst) =
        (lst.filter (fun i => decide (0 < s i))).map (fun (i : ℕ) => (i : ℤ)) := by
  intro lst
  induction lst with
  | nil => intro rank; rfl
  | cons i rest ih =>
      intro rank
      by_cases hc : 0 < s i
      · rw [posEntries, if_pos hc, List.filter_cons_of_pos (by simpa using hc),
          List.map_cons]
        show (i : ℤ) :: keysOf (posEntries alpha rrf_k s (rank + 1) rest) = _
        exact congrArg (List.cons _) (ih _)
      · rw [posEntries, if_neg hc, List.filter_cons_of_neg (by simpa using hc), ih]

theorem rrf_den_pos {rrf_k : ℚ} (h : 0 ≤ rrf_k) (r : ℕ) :
    0 < rrf_k + (r : ℚ) + 1 := by
  have hr : (0 : ℚ) ≤ (r : ℚ) := Nat.cast_nonneg r
  linarith

theorem lexOrder_nodup (bm : List ℚ) : (lexOrder bm).Nodup :=
  ((sortD_perm (bmScore bm) (List.range bm.length)).nodup_iff).2
    (List.nodup_range bm.length)

theorem bContribFrom_alpha_one (rrf_k : ℚ) (s : ℕ → ℚ) :
    ∀ (lst : List ℕ) (rank : ℕ) (d : ℤ),
      bContribFrom 1 rrf_k s rank lst d = 0 := by
  intro lst
  induction lst with
  | nil => intro rank d; rfl
  | cons i rest ih =>
      intro rank d
      rw [bContribFrom, ih]
      split
      · norm_num
      · norm_num

theorem vecEntriesFrom_pairwise {alpha rrf_k : ℚ} (ha : 0 ≤ alpha)
    (hρ : 0 ≤ rrf_k) :
    ∀ (lst : List VecResult) (rank : ℕ),
      (vecEntriesFrom alpha rrf_k rank lst).Pairwise (fun a b => b.2 ≤ a.2) := by
  intro lst
  induction lst with
  | nil => intro rank; exact List.Pairwise.nil
  | cons res rest ih =>
      intro rank
      cases hid : res.id with
      | none => simp only [vecEntriesFrom, hid]; exact ih _
      | some d =>
          simp only [vecEntriesFrom, hid]
          rw [List.pairwise_cons]
          refine ⟨fun e he => ?_, ih _⟩
          obtain ⟨j, hj, hval⟩ := vecEntriesFrom_snd alpha rrf_k rest _ e he
          rw [hval]
          refine mul_le_mul_of_nonneg_left ?_ ha
          refine one_div_le_one_div_of_le (rrf_den_pos hρ rank) ?_
          have : ((rank : ℚ)) + 1 ≤ (j : ℚ) := by
            have := Nat.cast_le (α := ℚ) |>.2 hj
            push_cast at this ⊢
            linarith
          linarith

theorem bmFresh_pairwise {alpha rrf_k : ℚ} (ha : alpha ≤ 1) (hρ : 0 ≤ rrf_k)
    (s : ℕ → ℚ) (ks : List ℤ) :
    ∀ (lst : List ℕ) (rank : ℕ),
      (bmFresh alpha rrf_k s ks rank lst).Pairwise (fun a b => b.2 ≤ a.2) := by
  intro lst
  induction lst with
  | nil => intro rank; exact List.Pairwise.nil
  | cons i rest ih =>
      intro rank
      by_cases hc : 0 < s i ∧ (i : ℤ) ∉ ks
      · rw [bmFresh, if_pos hc, List.pairwise_cons]
        refine ⟨fun e he => ?_, ih _⟩
        obtain ⟨j, hj, hval⟩ := bmFresh_snd alpha rrf_k s ks rest _ e he
        rw [hval]
        refine mul_le_mul_of_nonneg_left ?_ (by linarith)
        refine one_div_le_one_div_of_le (rrf_den_pos hρ rank) ?_
        have : ((rank : ℚ)) + 1 ≤ (j : ℚ) := by
          have := Nat.cast_le (α := ℚ) |>.2 hj
          push_cast at this ⊢
          linarith
        linarith
      · rw [bmFresh, if_neg hc]
        exact ih _

theorem posEntries_pairwise_strict {alpha rrf_k : ℚ} (ha : alpha < 1)
    (hρ : 0 ≤ rrf_k) (s : ℕ → ℚ) :
    ∀ (lst : List ℕ) (rank : ℕ),
      (posEntries alpha rrf_k s rank lst).Pairwise (fun a b => b.2 < a.2) := by
  intro lst
  induction lst with
  | nil => intro rank; exact List.Pairwise.nil
  | cons i rest ih =>
      intro rank
      by_cases hc : 0 < s i
      · rw [posEntries, if_pos hc, List.pairwise_cons]
        refine ⟨fun e he => ?_, ih _⟩
        obtain ⟨j, hj, hval⟩ := posEntries_snd alpha rrf_k s rest _ e he
        rw [hval]
        refine mul_lt_mul_of_pos_left ?_ (by linarith)
        refine one_div_lt_one_div_of_lt (rrf_den_pos hρ rank) ?_
        have : ((rank : ℚ)) + 1 ≤ (j : ℚ) := by
          have := Nat.cast_le (α := ℚ) |>.2 hj
          push_cast at this ⊢
          linarith
        linarith
      · rw [posEntries, if_neg hc]
        exact ih _

/-- A descending-sorted list of nonnegative-valued entries is its positive
part followed by its zero part. -/
theorem sorted_nonneg_split {M : List (ℤ × ℚ)}
    (hs : M.Pairwise (fun a b => b.2 ≤ a.2)) (hn : ∀ e ∈ M, 0 ≤ e.2) :
    M = M.filter (fun e => decide (0 < e.2)) ++
      M.filter (fun e => decide (e.2 = 0)) := by
  induction M with
  | nil => rfl
  | cons h t ih =>
      rw [List.pairwise_cons] at hs
      by_cases hp : 0 < h.2
      · rw [List.filter_cons_of_pos (by simpa using hp),
          List.filter_cons_of_neg (by simpa using ne_of_gt hp),
          List.cons_append]
        exact congrArg (List.cons h)
          (ih hs.2 (fun e he => hn e (List.mem_cons_of_mem h he)))
      · have hz : h.2 = 0 :=
          le_antisymm (not_lt.1 hp) (hn h (List.mem_cons_self h t))
        have hall : ∀ e ∈ h :: t, e.2 = 0 := by
          intro e he
          rcases List.mem_cons.1 he with he | he
          · rw [he, hz]
          · exact le_antisymm (hz ▸ hs.1 e he) (hn e (List.mem_cons_of_mem h he))
        rw [List.filter_eq_nil_iff.2
            (fun e he => by simp [hall e he]),
          List.filter_eq_self.2 (fun e he => by simp [hall e he]),
          List.nil_append]

theorem sortD_pairwise_strict {key : α → ℚ} {l : List α}
    (h : (l.map key).Nodup) :
    (sortD key l).Pairwise (fun a b => key b < key a) := by
  have h1 := sortD_pairwise key l
  have h2 : ((sortD key l).map key).Nodup :=
    (((sortD_perm key l).map key).nodup_iff).2 h
  have h3 : (sortD key l).Pairwise (fun a b => key a ≠ key b) :=
    List.pairwise_map.1 h2
  exact (h1.and h3).imp fun hab => lt_of_le_of_ne hab.1 (fun he => hab.2 he.symm)

/-- Two permuted lists that are both strictly descending in their values are
equal. -/
theorem sorted_strict_unique {l m : List (ℤ × ℚ)} (hp : List.Perm l m)
    (hl : l.Pairwise (fun a b => b.2 < a.2))
    (hm : m.Pairwise (fun a b => b.2 < a.2)) : l = m := by
  haveI : IsAntisymm (ℤ × ℚ) (fun a b => b.2 < a.2) :=
    ⟨fun a b h1 h2 => absurd (lt_trans h1 h2) (lt_irrefl _)⟩
  exact List.eq_of_perm_of_sorted hp hl hm

theorem vecHit_iff (vr : List VecResult) (e : ℤ) :
    vecHit vr e = true ↔ ∃ res ∈ vr, res.id = some e := by
  simp [vecHit, List.any_eq_true]

theorem lexHit_iff (bm : List ℚ) (e : ℤ) :
    lexHit bm e = true ↔
      ∃ i, i < bm.length ∧ (i : ℤ) = e ∧ 0 < bmScore bm i := by
  simp [lexHit, List.any_eq_true, List.mem_range]

/-- The fused dict, computed: when the vector ids are pairwise distinct it is
the ranked vector entries (each bumped by its lexical credit) followed by the
fresh lexical entries. -/
theorem fusedMap_structured (vr : List VecResult) (bm : List ℚ)
    (alpha rrf_k : ℚ) (hv : (vr.filterMap (fun r => r.id)).Nodup) :
    fusedMap vr bm alpha rrf_k =
      (vecEntriesFrom alpha rrf_k 0 (sortA distOf vr)).map
        (fun e => (e.1, e.2 +
          bContribFrom alpha rrf_k (bmScore bm) 0 (lexOrder bm) e.1)) ++
      bmFresh alpha rrf_k (bmScore bm)
        (keysOf (vecEntriesFrom alpha rrf_k 0 (sortA distOf vr))) 0
        (lexOrder bm) := by
  have hsv : ((sortA distOf vr).filterMap (fun r => r.id)).Nodup :=
    (((sortD_perm _ vr).filterMap (fun r => r.id)).nodup_iff).2 hv
  rw [fusedMap_eq,
    vecPhase_eq_append alpha rrf_k _ 0 [] hsv (by simp [keysOf]),
    List.nil_append]
  exact bmPhase_eq_append alpha rrf_k (bmScore bm) _ 0 _ (lexOrder_nodup bm)
    (by rw [keysOf_vecEntriesFrom]; exact hsv)

theorem mem_keys_vecEntries_iff (alpha rrf_k : ℚ) (vr : List VecResult)
    (e : ℤ) :
    e ∈ keysOf (vecEntriesFrom alpha rrf_k 0 (sortA distOf vr)) ↔
      ∃ res ∈ vr, res.id = some e := by
  rw [keysOf_vecEntriesFrom]
  constructor
  · intro h
    obtain ⟨res, hres, hid⟩ := List.mem_filterMap.1 h
    exact ⟨res, (mem_sortA distOf vr res).1 hres, hid⟩
  · rintro ⟨res, hres, hid⟩
    exact List.mem_filterMap.2 ⟨res, (mem_sortA distOf vr res).2 hres, hid⟩

theorem vecHit_eq_mem_keys (alpha rrf_k : ℚ) (vr : List VecResult) (e : ℤ) :
    vecHit vr e =
      decide (e ∈ keysOf (vecEntriesFrom alpha rrf_k 0 (sortA distOf vr))) := by
  refine Bool.eq_iff_iff.2 ?_
  rw [decide_eq_true_eq, vecHit_iff, mem_keys_vecEntries_iff]

/-- With distinct vector ids, `alpha = 1` produces exactly the vector-only
ranking followed by the positive-score lexical positions that are not vector
ids (all with fused score 0), truncated to `k`. -/
theorem fuse_alpha_one (vr : List VecResult) (bm : List ℚ) (k : ℕ)
    (hv : (vr.filterMap (fun r => r.id)).Nodup) :
    fuse_results vr bm k 1 60 =
      (vecOnlyRanking vr ++
        (lexPosRanking bm).filter (fun e => !(vecHit vr e))).take k := by
  have hmapid : (vecEntriesFrom 1 60 0 (sortA distOf vr)).map
      (fun e => (e.1, e.2 +
        bContribFrom 1 60 (bmScore bm) 0 (lexOrder bm) e.1)) =
      vecEntriesFrom 1 60 0 (sortA distOf vr) := by
    refine (List.map_congr_left fun e _ => ?_).trans (List.map_id _)
    rw [bContribFrom_alpha_one, add_zero]
    rfl
  have hstruct : fusedMap vr bm 1 60 =
      vecEntriesFrom 1 60 0 (sortA distOf vr) ++
        bmFresh 1 60 (bmScore bm)
          (keysOf (vecEntriesFrom 1 60 0 (sortA distOf vr))) 0 (lexOrder bm) := by
    rw [fusedMap_structured vr bm 1 60 hv, hmapid]
  have hpair : (vecEntriesFrom 1 60 0 (sortA distOf vr) ++
      bmFresh 1 60 (bmScore bm)
        (keysOf (vecEntriesFrom 1 60 0 (sortA distOf vr))) 0
        (lexOrder bm)).Pairwise (fun a b => b.2 ≤ a.2) := by
    rw [List.pairwise_append]
    refine ⟨vecEntriesFrom_pairwise (by norm_num) (by norm_num) _ _,
      bmFresh_pairwise (by norm_num) (by norm_num) _ _ _ _, ?_⟩
    intro a ha b hb
    obtain ⟨j2, _, hav⟩ := vecEntriesFrom_snd 1 60 _ _ a ha
    obtain ⟨j, _, hbv⟩ := bmFresh_snd 1 60 _ _ _ _ b hb
    have hpos := rrf_term_pos (show (0 : ℚ) ≤ 60 by norm_num) j2
    rw [hav, hbv]
    nlinarith
  have hkZ : keysOf (bmFresh 1 60 (bmScore bm)
      (keysOf (vecEntriesFrom 1 60 0 (sortA distOf vr))) 0 (lexOrder bm)) =
      (lexPosRanking bm).filter (fun e => !(vecHit vr e)) := by
    rw [keysOf_bmFresh, lexPosRanking, List.filter_map, List.filter_filter]
    refine congrArg (List.map _) (List.filter_congr fun i _ => ?_)
    rw [show ((fun e => !(vecHit vr e)) ∘ (fun (i : ℕ) => (i : ℤ))) i =
        !(vecHit vr (i : ℤ)) from rfl,
      vecHit_eq_mem_keys 1 60 vr]
    rw [Bool.and_comm]
  rw [fuse_results, hstruct, sortD_eq_self hpair, List.map_take,
    List.map_append]
  rw [show List.map Prod.fst (vecEntriesFrom 1 60 0 (sortA distOf vr)) =
      vecOnlyRanking vr from keysOf_vecEntriesFrom 1 60 _ 0]
  rw [show List.map Prod.fst (bmFresh 1 60 (bmScore bm)
      (keysOf (vecEntriesFrom 1 60 0 (sortA distOf vr))) 0 (lexOrder bm)) =
      (lexPosRanking bm).filter (fun e => !(vecHit vr e)) from hkZ]

theorem bContribFrom_append (alpha rrf_k : ℚ) (s : ℕ → ℚ) (l1 l2 : List ℕ) :
    ∀ (rank : ℕ) (d : ℤ),
      bContribFrom alpha rrf_k s rank (l1 ++ l2) d =
        bContribFrom alpha rrf_k s rank l1 d +
          bContribFrom alpha rrf_k s (rank + l1.length) l2 d := by
  induction l1 with
  | nil => intro rank d; simp [bContribFrom]
  | cons i rest ih =>
      intro rank d
      rw [List.cons_append, bContribFrom, bContribFrom, ih]
      have hr : rank + 1 + rest.length = rank + (i :: rest).length := by
        rw [List.length_cons]
        omega
      rw [hr]
      ring

theorem bContribFrom_split (alpha rrf_k : ℚ) (s : ℕ → ℚ) {l1 l2 : List ℕ}
    {i : ℕ} (hn1 : i ∉ l1) (hn2 : i ∉ l2) (hsi : 0 < s i) (rank : ℕ) :
    bContribFrom alpha rrf_k s rank (l1 ++ i :: l2) (i : ℤ) =
      (1 - alpha) * (1 / (rrf_k + ((rank + l1.length : ℕ) : ℚ) + 1)) := by
  rw [bContribFrom_append,
    bContribFrom_eq_zero_of_no_occ alpha rrf_k s
      (fun j hj hc => hn1 (by rwa [Nat.cast_inj.1 hc.2] at hj)) rank,
    zero_add, bContribFrom, if_pos ⟨hsi, rfl⟩,
    bContribFrom_eq_zero_of_no_occ alpha rrf_k s
      (fun j hj hc => hn2 (by rwa [Nat.cast_inj.1 hc.2] at hj)) _,
    add_zero]

theorem mem_posEntries_iff (alpha rrf_k : ℚ) (s : ℕ → ℚ) :
    ∀ (lst : List ℕ) (rank : ℕ) (x : ℤ × ℚ),
      x ∈ posEntries alpha rrf_k s rank lst ↔
        ∃ l1 i l2, lst = l1 ++ i :: l2 ∧ 0 < s i ∧
          x = ((i : ℤ),
            (1 - alpha) * (1 / (rrf_k + ((rank + l1.length : ℕ) : ℚ) + 1))) := by
  intro lst
  induction lst with
  | nil =>
      intro rank x
      simp only [posEntries, List.not_mem_nil, false_iff]
      rintro ⟨l1, i, l2, hL, -, -⟩
      exact List.not_mem_nil i (hL ▸ List.mem_append.2 (.inr (List.mem_cons_self i l2)))
  | cons j t ih =>
      intro rank x
      constructor
      · intro hx
        by_cases hj : 0 < s j
        · rw [posEntries, if_pos hj] at hx
          rcases List.mem_cons.1 hx with hx | hx
          · exact ⟨[], j, t, rfl, hj, by simpa using hx⟩
          · obtain ⟨l1, i, l2, hL, hsi, hval⟩ := (ih _ _).1 hx
            refine ⟨j :: l1, i, l2, by rw [List.cons_append, hL], hsi, ?_⟩
            rw [hval]
            have : rank + 1 + l1.length = rank + (j :: l1).length := by
              rw [List.length_cons]; omega
            rw [this]
        · rw [posEntries, if_neg hj] at hx
          obtain ⟨l1, i, l2, hL, hsi, hval⟩ := (ih _ _).1 hx
          refine ⟨j :: l1, i, l2, by rw [List.cons_append, hL], hsi, ?_⟩
          rw [hval]
          have : rank + 1 + l1.length = rank + (j :: l1).length := by
            rw [List.length_cons]; omega
          rw [this]
      · rintro ⟨l1, i, l2, hL, hsi, hval⟩
        cases l1 with
        | nil =>
            rw [List.nil_append] at hL
            cases hL
            rw [posEntries, if_pos hsi, hval]
            simp only [List.length_nil, Nat.add_zero]
            exact List.mem_cons_self _ _
        | cons j2 l1' =>
            rw [List.cons_append] at hL
            injection hL with h1 h2
            subst h1
            subst h2
            have hx2 : x ∈ posEntries alpha rrf_k s (rank + 1) (l1' ++ i :: l2) := by
              refine (ih _ _).2 ⟨l1', i, l2, rfl, hsi, ?_⟩
              rw [hval]
              have hlen : rank + (j :: l1').length = rank + 1 + l1'.length := by
                rw [List.length_cons]; omega
              rw [hlen]
            by_cases hj : 0 < s j
            · rw [posEntries, if_pos hj]
              exact List.mem_cons_of_mem _ hx2
            · rw [posEntries, if_neg hj]
              exact hx2

theorem mem_bmFresh_iff (alpha rrf_k : ℚ) (s : ℕ → ℚ) (ks : List ℤ) :
    ∀ (lst : List ℕ) (rank : ℕ) (x : ℤ × ℚ),
      x ∈ bmFresh alpha rrf_k s ks rank lst ↔
        ∃ l1 i l2, lst = l1 ++ i :: l2 ∧ 0 < s i ∧ (i : ℤ) ∉ ks ∧
          x = ((i : ℤ),
            (1 - alpha) * (1 / (rrf_k + ((rank + l1.length : ℕ) : ℚ) + 1))) := by
  intro lst
  induction lst with
  | nil =>
      intro rank x
      simp only [bmFresh, List.not_mem_nil, false_iff]
      rintro ⟨l1, i, l2, hL, -, -, -⟩
      exact List.not_mem_nil i (hL ▸ List.mem_append.2 (.inr (List.mem_cons_self i l2)))
  | cons j t ih =>
      intro rank x
      constructor
      · intro hx
        by_cases hj : 0 < s j ∧ (j : ℤ) ∉ ks
        · rw [bmFresh, if_pos hj] at hx
          rcases List.mem_cons.1 hx with hx | hx
          · exact ⟨[], j, t, rfl, hj.1, hj.2, by simpa using hx⟩
          · obtain ⟨l1, i, l2, hL, hsi, hks, hval⟩ := (ih _ _).1 hx
            refine ⟨j :: l1, i, l2, by rw [List.cons_append, hL], hsi, hks, ?_⟩
            rw [hval]
            have : rank + 1 + l1.length = rank + (j :: l1).length := by
              rw [List.length_cons]; omega
            rw [this]
        · rw [bmFresh, if_neg hj] at hx
          obtain ⟨l1, i, l2, hL, hsi, hks, hval⟩ := (ih _ _).1 hx
          refine ⟨j :: l1, i, l2, by rw [List.cons_append, hL], hsi, hks, ?_⟩
          rw [hval]
          have : rank + 1 + l1.length = rank + (j :: l1).length := by
            rw [List.length_cons]; omega
          rw [this]
      · rintro ⟨l1, i, l2, hL, hsi, hks, hval⟩
        cases l1 with
        | nil =>
            rw [List.nil_append] at hL
            cases hL
            rw [bmFresh, if_pos ⟨hsi, hks⟩]
            rw [hval]
            simp only [List.length_nil, Nat.add_zero]
            exact List.mem_cons_self _ _
        | cons j2 l1' =>
            rw [List.cons_append] at hL
            injection hL with h1 h2
            subst h1
            subst h2
            have hx2 : x ∈ bmFresh alpha rrf_k s ks (rank + 1) (l1' ++ i :: l2) := by
              refine (ih _ _).2 ⟨l1', i, l2, rfl, hsi, hks, ?_⟩
              rw [hval]
              have hlen : rank + (j :: l1').length = rank + 1 + l1'.length := by
                rw [List.length_cons]; omega
              rw [hlen]
            by_cases hj : 0 < s j ∧ (j : ℤ) ∉ ks
            · rw [bmFresh, if_pos hj]
              exact List.mem_cons_of_mem _ hx2
            · rw [bmFresh, if_neg hj]
              exact hx2

theorem posEntries_snd_nodup {alpha rrf_k : ℚ} (ha : alpha < 1)
    (hρ : 0 ≤ rrf_k) (s : ℕ → ℚ) (lst : List ℕ) (rank : ℕ) :
    ((posEntries alpha rrf_k s rank lst).map Prod.snd).Nodup := by
  have h := posEntries_pairwise_strict ha hρ s lst rank
  exact List.pairwise_map.2 (h.imp fun hlt => (ne_of_lt hlt).symm)

theorem vecEntriesFrom_snd_zero (rrf_k : ℚ) {lst : List VecResult} {rank : ℕ}
    {e : ℤ × ℚ} (he : e ∈ vecEntriesFrom 0 rrf_k rank lst) : e.2 = 0 := by
  obtain ⟨j, -, hval⟩ := vecEntriesFrom_snd 0 rrf_k lst rank e he
  rw [hval, zero_mul]

theorem lexOrder_split_nodup {bm : List ℚ} {l1 l2 : List ℕ} {i : ℕ}
    (hL : lexOrder bm = l1 ++ i :: l2) : i ∉ l1 ∧ i ∉ l2 := by
  have hnd := lexOrder_nodup bm
  rw [hL, List.nodup_append] at hnd
  obtain ⟨h1, h2, h3⟩ := hnd
  rw [List.nodup_cons] at h2
  exact ⟨fun hin => h3 hin (List.mem_cons_self i l2), h2.1⟩

theorem bContribFrom_zero_iff_lexHit (bm : List ℚ) (e : ℤ) :
    bContribFrom 0 60 (bmScore bm) 0 (lexOrder bm) e = 0 ↔
      ¬(lexHit bm e = true) := by
  constructor
  · intro h0 hhit
    obtain ⟨i, hi, hie, hsi⟩ := (lexHit_iff bm e).1 hhit
    have hiL : i ∈ lexOrder bm := (mem_sortD _ _ i).2 (List.mem_range.2 hi)
    have hpos := bContribFrom_pos (show (0 : ℚ) < 1 by norm_num)
      (show (0 : ℚ) ≤ 60 by norm_num) ⟨i, hiL, hsi, hie⟩ 0
    rw [h0] at hpos
    exact lt_irrefl 0 hpos
  · intro hnot
    refine bContribFrom_eq_zero_of_no_occ _ _ _ (fun i hi hc => hnot ?_) 0
    exact (lexHit_iff bm e).2
      ⟨i, List.mem_range.1 ((mem_sortD _ _ i).1 hi), hc.2, hc.1⟩

/-- With distinct vector ids, `alpha = 0` produces exactly the lexical
positive-score ranking followed by the vector-only ids with no lexical match
(all with fused score 0), truncated to `k`. -/
theorem fuse_alpha_zero (vr : List VecResult) (bm : List ℚ) (k : ℕ)
    (hv : (vr.filterMap (fun r => r.id)).Nodup) :
    fuse_results vr bm k 0 60 =
      (lexPosRanking bm ++
        (vecOnlyRanking vr).filter (fun e => !(lexHit bm e))).take k := by
  have hstruct := fusedMap_structured vr bm 0 60 hv
  have hnonneg : ∀ e ∈ fusedMap vr bm 0 60, 0 ≤ e.2 := by
    intro e he
    rw [hstruct] at he
    rcases List.mem_append.1 he with he | he
    · obtain ⟨a, ha, rfl⟩ := List.mem_map.1 he
      have ha2 : a.2 = 0 := vecEntriesFrom_snd_zero 60 ha
      show (0 : ℚ) ≤ a.2 + _
      rw [ha2, zero_add]
      exact bContribFrom_nonneg (by norm_num) (by norm_num) _ _ _ _
    · obtain ⟨j, -, hval⟩ := bmFresh_snd 0 60 _ _ _ _ e he
      have hj := rrf_term_pos (show (0 : ℚ) ≤ 60 by norm_num) j
      rw [hval]
      nlinarith
  have hmemF : ∀ x, x ∈ (fusedMap vr bm 0 60).filter (fun e => decide (0 < e.2)) ↔
      x ∈ posEntries 0 60 (bmScore bm) 0 (lexOrder bm) := by
    intro x
    rw [List.mem_filter, hstruct, List.mem_append, mem_posEntries_iff]
    constructor
    · rintro ⟨hmem | hmem, hpos⟩
      · obtain ⟨a, ha, rfl⟩ := List.mem_map.1 hmem
        have ha2 : a.2 = 0 := vecEntriesFrom_snd_zero 60 ha
        rw [decide_eq_true_eq] at hpos
        have hbfpos : 0 < bContribFrom 0 60 (bmScore bm) 0 (lexOrder bm) a.1 := by
          have : (0 : ℚ) < a.2 + bContribFrom 0 60 (bmScore bm) 0 (lexOrder bm) a.1 := hpos
          rwa [ha2, zero_add] at this
        have hhit : lexHit bm a.1 = true := by
          by_contra hno
          rw [(bContribFrom_zero_iff_lexHit bm a.1).2 hno] at hbfpos
          exact lt_irrefl 0 hbfpos
        obtain ⟨i, hi, hie, hsi⟩ := (lexHit_iff bm a.1).1 hhit
        have hiL : i ∈ lexOrder bm := (mem_sortD _ _ i).2 (List.mem_range.2 hi)
        obtain ⟨l1, l2, hLsplit⟩ := List.append_of_mem hiL
        obtain ⟨hn1, hn2⟩ := lexOrder_split_nodup hLsplit
        refine ⟨l1, i, l2, hLsplit, hsi, ?_⟩
        have hbf : bContribFrom 0 60 (bmScore bm) 0 (lexOrder bm) (i : ℤ) =
            (1 - 0) * (1 / (60 + ((0 + l1.length : ℕ) : ℚ) + 1)) := by
          rw [hLsplit]
          exact bContribFrom_split 0 60 (bmScore bm) hn1 hn2 hsi 0
        refine Prod.ext hie.symm ?_
        show a.2 + _ = _
        rw [ha2, zero_add, ← hie, hbf]
      · obtain ⟨l1, i, l2, hL, hsi, -, hval⟩ :=
          (mem_bmFresh_iff 0 60 (bmScore bm) _ _ _ x).1 hmem
        exact ⟨l1, i, l2, hL, hsi, hval⟩
    · rintro ⟨l1, i, l2, hL, hsi, hval⟩
      obtain ⟨hn1, hn2⟩ := lexOrder_split_nodup hL
      have hbf : bContribFrom 0 60 (bmScore bm) 0 (lexOrder bm) (i : ℤ) =
          (1 - 0) * (1 / (60 + ((0 + l1.length : ℕ) : ℚ) + 1)) := by
        rw [hL]
        exact bContribFrom_split 0 60 (bmScore bm) hn1 hn2 hsi 0
      have hposval : decide (0 < x.2) = true := by
        rw [decide_eq_true_eq, hval]
        have := rrf_term_pos (show (0 : ℚ) ≤ 60 by norm_num) (0 + l1.length)
        nlinarith
      refine ⟨?_, hposval⟩
      by_cases hks : (i : ℤ) ∈ keysOf (vecEntriesFrom 0 60 0 (sortA distOf vr))
      · left
        obtain ⟨a, ha, hafst⟩ := List.mem_map.1 hks
        refine List.mem_map.2 ⟨a, ha, ?_⟩
        have ha2 : a.2 = 0 := vecEntriesFrom_snd_zero 60 ha
        refine Prod.ext ?_ ?_
        · show a.1 = x.1
          rw [hval, hafst]
        · show a.2 + _ = x.2
          rw [ha2, zero_add, hafst, hbf, hval]
      · right
        exact (mem_bmFresh_iff 0 60 (bmScore bm) _ _ _ x).2
          ⟨l1, i, l2, hL, hsi, hks, hval⟩
  have hFnd : (fusedMap vr bm 0 60).Nodup :=
    (nodup_keysOf_fusedMap vr bm 0 60).of_map _
  have hPnd : (posEntries 0 60 (bmScore bm) 0 (lexOrder bm)).Nodup := by
    have hk : (keysOf (posEntries 0 60 (bmScore bm) 0 (lexOrder bm))).Nodup := by
      rw [keysOf_posEntries]
      exact ((lexOrder_nodup bm).filter _).map
        (fun a b h => Nat.cast_inj.1 h)
    exact hk.of_map _
  have hperm : List.Perm
      ((fusedMap vr bm 0 60).filter (fun e => decide (0 < e.2)))
      (posEntries 0 60 (bmScore bm) 0 (lexOrder bm)) :=
    (List.perm_ext_iff_of_nodup (hFnd.filter _) hPnd).2 hmemF
  have hsndP := posEntries_snd_nodup (show (0 : ℚ) < 1 by norm_num)
    (show (0 : ℚ) ≤ 60 by norm_num) (bmScore bm) (lexOrder bm) 0
  have hsndF : (((fusedMap vr bm 0 60).filter
      (fun e => decide (0 < e.2))).map Prod.snd).Nodup :=
    ((hperm.map Prod.snd).nodup_iff).2 hsndP
  have hsortPos : sortD Prod.snd
      ((fusedMap vr bm 0 60).filter (fun e => decide (0 < e.2))) =
      posEntries 0 60 (bmScore bm) 0 (lexOrder bm) :=
    sorted_strict_unique ((sortD_perm _ _).trans hperm)
      (sortD_pairwise_strict hsndF)
      (posEntries_pairwise_strict (by norm_num) (by norm_num) _ _ _)
  have hzsorted : sortD Prod.snd
      ((fusedMap vr bm 0 60).filter (fun e => decide (e.2 = 0))) =
      (fusedMap vr bm 0 60).filter (fun e => decide (e.2 = 0)) := by
    refine sortD_eq_self (List.pairwise_of_forall_mem_list fun a ha b hb => ?_)
    have ha0 : a.2 = 0 := by simpa using (List.mem_filter.1 ha).2
    have hb0 : b.2 = 0 := by simpa using (List.mem_filter.1 hb).2
    rw [ha0, hb0]
  have hzid : ((fusedMap vr bm 0 60).filter
      (fun e => decide (e.2 = 0))).map Prod.fst =
      (vecOnlyRanking vr).filter (fun e => !(lexHit bm e)) := by
    rw [hstruct, List.filter_append]
    have hzeroB : (bmFresh 0 60 (bmScore bm)
        (keysOf (vecEntriesFrom 0 60 0 (sortA distOf vr))) 0
        (lexOrder bm)).filter (fun e => decide (e.2 = 0)) = [] := by
      refine List.filter_eq_nil_iff.2 fun e he => ?_
      obtain ⟨j, -, hval⟩ := bmFresh_snd 0 60 _ _ _ _ e he
      have hj := rrf_term_pos (show (0 : ℚ) ≤ 60 by norm_num) j
      rw [decide_eq_true_eq] at *
      rw [hval]
      intro hc
      nlinarith
    rw [hzeroB, List.append_nil, List.filter_map, List.map_map]
    have h1 : (vecEntriesFrom 0 60 0 (sortA distOf vr)).filter
        ((fun e => decide (e.2 = 0)) ∘
          (fun e => (e.1, e.2 +
            bContribFrom 0 60 (bmScore bm) 0 (lexOrder bm) e.1))) =
        (vecEntriesFrom 0 60 0 (sortA distOf vr)).filter
          (fun a => !(lexHit bm a.1)) := by
      refine List.filter_congr fun a ha => ?_
      have ha2 : a.2 = 0 := vecEntriesFrom_snd_zero 60 ha
      show decide (a.2 + bContribFrom 0 60 (bmScore bm) 0 (lexOrder bm) a.1 = 0) = _
      rw [ha2, zero_add]
      by_cases hhit : lexHit bm a.1 = true
      · have hne : ¬(bContribFrom 0 60 (bmScore bm) 0 (lexOrder bm) a.1 = 0) :=
          fun h0 => (bContribFrom_zero_iff_lexHit bm a.1).1 h0 hhit
        rw [hhit, decide_eq_false hne]
        rfl
      · have hb0 := (bContribFrom_zero_iff_lexHit bm a.1).2 hhit
        rw [Bool.not_eq_true] at hhit
        rw [hhit, hb0]
        rfl
    rw [h1]
    have h2 : ((Prod.fst) ∘ (fun e : ℤ × ℚ => (e.1, e.2 +
        bContribFrom 0 60 (bmScore bm) 0 (lexOrder bm) e.1))) =
        (Prod.fst : ℤ × ℚ → ℤ) := rfl
    rw [h2,
      show ((fun (a : ℤ × ℚ) => !(lexHit bm a.1))) =
        ((fun e => !(lexHit bm e)) ∘ Prod.fst) from rfl,
      ← List.filter_map,
      show List.map Prod.fst (vecEntriesFrom 0 60 0 (sortA distOf vr)) =
        vecOnlyRanking vr from keysOf_vecEntriesFrom 0 60 _ 0]
  have hM := sorted_nonneg_split (sortD_pairwise Prod.snd (fusedMap vr bm 0 60))
    (fun e he => hnonneg e ((sortD_perm _ _).mem_iff.1 he))
  rw [fuse_results, hM, sortD_filter, sortD_filter, hsortPos, hzsorted,
    List.map_take, List.map_append, hzid,
    show (posEntries 0 60 (bmScore bm) 0 (lexOrder bm)).map Prod.fst =
      lexPosRanking bm from keysOf_posEntries 0 60 (bmScore bm) (lexOrder bm) 0]

/-! ## Degenerate sources: empty vector results, empty corpus -/

/-- With no vector results, fusion is exactly the positive-score lexical
ranking truncated to `k` (the descending credits keep it already sorted). -/
theorem fuse_vec_empty (bm : List ℚ) (k : ℕ) {alpha : ℚ} (h0 : 0 ≤ alpha)
    (h1 : alpha ≤ 1) :
    fuse_results [] bm k alpha 60 = (lexPosRanking bm).take k := by
  have hstruct := fusedMap_structured [] bm alpha 60 (by simp)
  have hV : vecEntriesFrom alpha 60 0 (sortA distOf []) = [] := rfl
  rw [hV, List.map_nil, List.nil_append] at hstruct
  rw [fuse_results, hstruct,
    sortD_eq_self (bmFresh_pairwise h1 (by norm_num) _ _ _ _),
    List.map_take,
    show List.map Prod.fst (bmFresh alpha 60 (bmScore bm) (keysOf []) 0
        (lexOrder bm)) = _ from keysOf_bmFresh alpha 60 (bmScore bm) _ _ 0]
  congr 1
  rw [lexPosRanking]
  refine congrArg (List.map _) (List.filter_congr fun i _ => ?_)
  simp [keysOf]

/-- With an empty corpus the lexical side contributes nothing: fusion is the
vector-only ranking truncated to `k` (requires distinct ids so that the
decreasing vector credits keep the dict already sorted). -/
theorem fuse_bm_empty (vr : List VecResult) (k : ℕ) {alpha : ℚ}
    (h0 : 0 ≤ alpha) (hv : (vr.filterMap (fun r => r.id)).Nodup) :
    fuse_results vr [] k alpha 60 = (vecOnlyRanking vr).take k := by
  have hstruct := fusedMap_structured vr [] alpha 60 hv
  have hL : lexOrder ([] : List ℚ) = [] := rfl
  rw [hL] at hstruct
  have hmapid : (vecEntriesFrom alpha 60 0 (sortA distOf vr)).map
      (fun e => (e.1, e.2 + bContribFrom alpha 60 (bmScore []) 0 [] e.1)) =
      vecEntriesFrom alpha 60 0 (sortA distOf vr) := by
    refine (List.map_congr_left fun e _ => ?_).trans (List.map_id _)
    rw [bContribFrom, add_zero]
    rfl
  rw [hmapid] at hstruct
  have hB : bmFresh alpha 60 (bmScore [])
      (keysOf (vecEntriesFrom alpha 60 0 (sortA distOf vr))) 0 [] = [] := rfl
  rw [hB, List.append_nil] at hstruct
  rw [fuse_results, hstruct,
    sortD_eq_self (vecEntriesFrom_pairwise h0 (by norm_num) _ _),
    List.map_take,
    show List.map Prod.fst (vecEntriesFrom alpha 60 0 (sortA distOf vr)) =
      vecOnlyRanking vr from keysOf_vecEntriesFrom alpha 60 _ 0]

theorem bmScore_nonneg_of_forall {l : List ℚ} (h : ∀ x ∈ l, 0 ≤ x) :
    ∀ i : ℕ, 0 ≤ bmScore l i := by
  induction l with
  | nil => intro i; exact le_refl 0
  | cons a t ih =>
      intro i
      cases i with
      | zero =>
          rw [bmScore, List.getD_cons_zero]
          exact h a (List.mem_cons_self a t)
      | succ j =>
          rw [bmScore, List.getD_cons_succ]
          exact ih (fun x hx => h x (List.mem_cons_of_mem a hx)) j

theorem get_scores_nonneg (corpus : List (List String))
    (qt : List String) (i : ℕ) : 0 ≤ bmScore (get_scores corpus qt) i := by
  refine bmScore_nonneg_of_forall (fun x hx => ?_) i
  obtain ⟨doc, -, rfl⟩ := List.mem_map.1 hx
  exact Nat.cast_nonneg _

/-! ## Key membership, positivity and output membership -/

theorem sval_pos_of_mem_keys {vr : List VecResult} {bm : List ℚ}
    {alpha rrf_k : ℚ} (h0 : 0 < alpha) (h1 : alpha < 1) (hρ : 0 ≤ rrf_k)
    {e : ℤ} (he : e ∈ keysOf (fusedMap vr bm alpha rrf_k)) :
    0 < sval (fusedMap vr bm alpha rrf_k) e := by
  rw [sval_fusedMap]
  rcases (mem_keysOf_fusedMap vr bm alpha rrf_k e).1 he with hvec | hlex
  · refine add_pos_of_pos_of_nonneg ?_
      (bContribFrom_nonneg h1.le hρ _ _ _ _)
    obtain ⟨res, hres, hid⟩ := hvec
    exact vContribFrom_pos h0 hρ ⟨res, (mem_sortA distOf vr res).2 hres, hid⟩ 0
  · refine add_pos_of_nonneg_of_pos (vContribFrom_nonneg h0.le hρ _ _ _) ?_
    obtain ⟨i, hi, hsi, hie⟩ := hlex
    exact bContribFrom_pos h1 hρ
      ⟨i, (mem_sortD _ _ i).2 (List.mem_range.2 hi), hsi, hie⟩ 0

theorem mem_fuse_of_le_length (vr : List VecResult) (bm : List ℚ) (k : ℕ)
    (alpha rrf_k : ℚ) (hk : (fusedMap vr bm alpha rrf_k).length ≤ k) {e : ℤ}
    (he : e ∈ keysOf (fusedMap vr bm alpha rrf_k)) :
    e ∈ fuse_results vr bm k alpha rrf_k := by
  rw [fuse_results,
    List.take_of_length_le (by rw [(sortD_perm _ _).length_eq]; exact hk)]
  obtain ⟨p, hp, rfl⟩ := List.mem_map.1 he
  exact List.mem_map.2 ⟨p, (sortD_perm _ _).mem_iff.2 hp, rfl⟩

/-! ## The claims -/

/-- C1 (counterexample to the claim as stated): with the BM25 score sequence
`[-1]`, position 0 has a nonzero score, so the claimed formula assigns it the
lexical credit `(1 - alpha) * (1 / (rrf_k + 0 + 1))`; the code's accumulated
score map gives it nothing (the code credits only strictly positive scores),
so the claimed per-identity equation is false at this input. -/
theorem claim_C1_counterexample :
    sval (fusedMap [] [-1] (1/2) 60) 0 ≠
      specVecContrib (1/2) 60 [] 0 + specLexContrib (1/2) 60 [-1] 0 := by
  norm_num [fuse_results, fusedMap, lexOrder, bmScore, sortA, sortD, insertD, distOf, vecPhase, bmPhase, upsert, sval, keysOf,
    specVecContrib, specLexContrib, idRankSumIf, lexRankedNonzero,
    vContribFrom, List.range]

/-- C1 (amended: a position receives lexical credit only when its BM25 score
is strictly positive; its rank is unchanged, taken over the zero-excluded
descending ranking): every identity's accumulated fused score equals the
spec's vector RRF sum plus the amended lexical RRF sum, and the ids returned
by `fuse_results` are ordered by non-increasing accumulated fused score. -/
theorem claim_C1 (vr : List VecResult) (bm : List ℚ) (k : ℕ)
    (alpha rrf_k : ℚ) :
    (∀ d : ℤ, sval (fusedMap vr bm alpha rrf_k) d =
      specVecContrib alpha rrf_k vr d + specLexContribPos alpha rrf_k bm d) ∧
    (fuse_results vr bm k alpha rrf_k).Pairwise
      (fun a b => sval (fusedMap vr bm alpha rrf_k) b ≤
        sval (fusedMap vr bm alpha rrf_k) a) :=
  ⟨fun d => sval_fusedMap_spec vr bm alpha rrf_k d,
    fuse_results_pairwise vr bm k alpha rrf_k⟩

/-- C2 (counterexample to the claim as stated): at `alpha = 0` a document
appearing only in the vector results receives the dict entry `0.0` and is
nevertheless returned — the output is not restricted to identities with
nonzero accumulated fused score, so the "for every alpha including 0 and 1"
part of the claim is false. -/
theorem claim_C2_counterexample :
    fuse_results [⟨some 5, some 1⟩] [] 10 0 60 = [5] ∧
    sval (fusedMap [⟨some 5, some 1⟩] [] 0 60) 5 = 0 := by
  constructor
  · norm_num [fuse_results, fusedMap, lexOrder, bmScore, sortA, sortD, insertD, distOf, vecPhase, bmPhase, upsert, sval, keysOf, List.range]
  · norm_num [fuse_results, fusedMap, lexOrder, bmScore, sortA, sortD, insertD, distOf, vecPhase, bmPhase, upsert, sval, keysOf, List.range]

/-- C2 (amended: restricted to `0 < alpha < 1`; at the boundaries a
single-ranker document can carry a zero entry and still be returned): the
fused dict's keys are exactly the union of vector-result ids and
positive-score corpus positions (so a document in neither ranker is absent,
never a zero entry); every returned id is such a key and has strictly
positive accumulated score; and whenever `k` is at least the dict size every
such key — including documents found by only one ranker — is returned. -/
theorem claim_C2 (vr : List VecResult) (bm : List ℚ) (k : ℕ)
    (alpha rrf_k : ℚ) (h0 : 0 < alpha) (h1 : alpha < 1) (hρ : 0 ≤ rrf_k) :
    (∀ e : ℤ, e ∈ keysOf (fusedMap vr bm alpha rrf_k) ↔
      ((∃ res ∈ vr, res.id = some e) ∨
        ∃ i, i < bm.length ∧ 0 < bmScore bm i ∧ (i : ℤ) = e)) ∧
    (∀ e ∈ fuse_results vr bm k alpha rrf_k,
      e ∈ keysOf (fusedMap vr bm alpha rrf_k) ∧
        0 < sval (fusedMap vr bm alpha rrf_k) e) ∧
    ((fusedMap vr bm alpha rrf_k).length ≤ k →
      ∀ e ∈ keysOf (fusedMap vr bm alpha rrf_k),
        e ∈ fuse_results vr bm k alpha rrf_k) := by
  refine ⟨fun e => mem_keysOf_fusedMap vr bm alpha rrf_k e,
    fun e he => ?_, fun hk e he => mem_fuse_of_le_length vr bm k alpha rrf_k hk he⟩
  have hkey := mem_keysOf_of_mem_fuse vr bm k alpha rrf_k he
  exact ⟨hkey, sval_pos_of_mem_keys h0 h1 hρ hkey⟩

theorem claim_C2_witness :
    (∀ e : ℤ, e ∈ keysOf (fusedMap [⟨some 5, some 1⟩] [1] (1/2) 60) ↔
      ((∃ res ∈ [(⟨some 5, some 1⟩ : VecResult)], res.id = some e) ∨
        ∃ i, i < ([(1 : ℚ)] : List ℚ).length ∧ 0 < bmScore [1] i ∧ (i : ℤ) = e)) ∧
    (∀ e ∈ fuse_results [⟨some 5, some 1⟩] [1] 2 (1/2) 60,
      e ∈ keysOf (fusedMap [⟨some 5, some 1⟩] [1] (1/2) 60) ∧
        0 < sval (fusedMap [⟨some 5, some 1⟩] [1] (1/2) 60) e) ∧
    ((fusedMap [⟨some 5, some 1⟩] [1] (1/2) 60).length ≤ 2 →
      ∀ e ∈ keysOf (fusedMap [⟨some 5, some 1⟩] [1] (1/2) 60),
        e ∈ fuse_results [⟨some 5, some 1⟩] [1] 2 (1/2) 60) :=
  claim_C2 [⟨some 5, some 1⟩] [1] 2 (1/2) 60 (by norm_num) (by norm_num)
    (by norm_num)

/-- C3 (counterexample to the claim as stated): (i) at `alpha = 1` a
positive-BM25 document absent from the vector results still enters the output
with fused score 0, so the ranking is not exactly the vector ordering;
(ii) a duplicated vector id accumulates two credits and overtakes an earlier
id, so even the vector portion can reorder; (iii) symmetrically at
`alpha = 0` a vector-only document trails the lexical ranking; (iv) at
`alpha = 0` a negative-score document is in the claim's "nonzero" BM25
ordering but never returned. -/
theorem claim_C3_counterexample :
    (fuse_results [⟨some 0, some 0⟩] [0, 5] 10 1 60 ≠
      vecOnlyRanking [⟨some 0, some 0⟩]) ∧
    (fuse_results [⟨some 8, some 0⟩, ⟨some 7, some 1⟩, ⟨some 7, some 2⟩] []
        10 1 60 ≠
      vecOnlyRanking [⟨some 8, some 0⟩, ⟨some 7, some 1⟩, ⟨some 7, some 2⟩]) ∧
    (fuse_results [⟨some 5, some 1⟩] [2] 10 0 60 ≠ lexNonzeroRanking [2]) ∧
    (fuse_results [] [-1] 10 0 60 ≠ lexNonzeroRanking [-1]) := by
  refine ⟨?_, ?_, ?_, ?_⟩ <;>
    norm_num [fuse_results, fusedMap, lexOrder, bmScore, sortA, sortD, insertD, distOf, vecPhase, bmPhase, upsert, sval, keysOf, vecOnlyRanking, lexNonzeroRanking,
      lexRankedNonzero, List.filterMap, List.range]

/-- C3 (amended: assuming pairwise-distinct vector ids; `alpha = 1.0` yields
the vector-only distance ordering followed by the zero-scored leftover
positive-BM25 positions, truncated to `k`; `alpha = 0.0` yields the
BM25-descending ordering over strictly positive scores followed by the
zero-scored leftover vector ids, truncated to `k`). -/
theorem claim_C3 (vr : List VecResult) (bm : List ℚ) (k : ℕ)
    (hv : (vr.filterMap (fun r => r.id)).Nodup) :
    fuse_results vr bm k 1 60 =
      (vecOnlyRanking vr ++
        (lexPosRanking bm).filter (fun e => !(vecHit vr e))).take k ∧
    fuse_results vr bm k 0 60 =
      (lexPosRanking bm ++
        (vecOnlyRanking vr).filter (fun e => !(lexHit bm e))).take k :=
  ⟨fuse_alpha_one vr bm k hv, fuse_alpha_zero vr bm k hv⟩

theorem claim_C3_witness :
    fuse_results [⟨some 1, some (1/10)⟩, ⟨some 2, some (1/2)⟩] [3, 0] 10 1 60 =
      (vecOnlyRanking [⟨some 1, some (1/10)⟩, ⟨some 2, some (1/2)⟩] ++
        (lexPosRanking [3, 0]).filter
          (fun e => !(vecHit [⟨some 1, some (1/10)⟩, ⟨some 2, some (1/2)⟩] e))).take 10 ∧
    fuse_results [⟨some 1, some (1/10)⟩, ⟨some 2, some (1/2)⟩] [3, 0] 10 0 60 =
      (lexPosRanking [3, 0] ++
        (vecOnlyRanking [⟨some 1, some (1/10)⟩, ⟨some 2, some (1/2)⟩]).filter
          (fun e => !(lexHit [3, 0] e))).take 10 :=
  claim_C3 [⟨some 1, some (1/10)⟩, ⟨some 2, some (1/2)⟩] [3, 0] 10 (by decide)

/-- C4: a corpus position whose BM25 score is exactly 0 is never returned by
`fuse_results` unless its identity also occurs among the vector results —
zero-score positions receive no lexical RRF credit and hence no dict entry of
their own. -/
theorem claim_C4 (vr : List VecResult) (bm : List ℚ) (k : ℕ)
    (alpha rrf_k : ℚ) (p : ℕ) (hp : bmScore bm p = 0)
    (hmem : (p : ℤ) ∈ fuse_results vr bm k alpha rrf_k) :
    ∃ res ∈ vr, res.id = some (p : ℤ) := by
  have hkey := mem_keysOf_of_mem_fuse vr bm k alpha rrf_k hmem
  rcases (mem_keysOf_fusedMap vr bm alpha rrf_k _).1 hkey with h | ⟨i, hi, hsi, hie⟩
  · exact h
  · rw [Nat.cast_inj.1 hie, hp] at hsi
    exact absurd hsi (lt_irrefl 0)

theorem claim_C4_witness :
    ∃ res ∈ [(⟨some 0, some 1⟩ : VecResult)], res.id = some ((0 : ℕ) : ℤ) :=
  claim_C4 [⟨some 0, some 1⟩] [0] 1 (1/2) 60 0 (by norm_num [bmScore])
    (by norm_num [fuse_results, fusedMap, lexOrder, bmScore, sortA, sortD, insertD, distOf, vecPhase, bmPhase, upsert, sval, keysOf, List.range])

/-- C5: when the vector adapter returns an empty list, `search` still returns
up to `k` results, drawn purely from strictly positive BM25 scores in
BM25-descending order (with nonnegative BM25 scores, as the modelled lexical
index produces, positive and nonzero coincide); and an empty result implies
the lexical source also failed totally (all scores zero). -/
theorem claim_C5 (docs : List String) (q : String) (k : ℕ) (alpha : ℚ)
    (h0 : 0 ≤ alpha) (h1 : alpha ≤ 1) (hk : 1 ≤ k) :
    (HybridSearch.init docs).search (fun _ _ => []) q k alpha =
      (lexPosRanking (get_scores (docs.map tokenize) (tokenize q))).take k ∧
    ((HybridSearch.init docs).search (fun _ _ => []) q k alpha = [] →
      ∀ i < (get_scores (docs.map tokenize) (tokenize q)).length,
        bmScore (get_scores (docs.map tokenize) (tokenize q)) i = 0) := by
  have hs : (HybridSearch.init docs).search (fun _ _ => []) q k alpha =
      fuse_results [] (get_scores (docs.map tokenize) (tokenize q)) k alpha 60 :=
    rfl
  constructor
  · rw [hs]
    exact fuse_vec_empty _ k h0 h1
  · intro hempty i hi
    rw [hs, fuse_vec_empty _ k h0 h1] at hempty
    rcases List.take_eq_nil_iff.1 hempty with hk0 | hnil
    · omega
    · rw [lexPosRanking, List.map_eq_nil_iff] at hnil
      have hmem : i ∈ lexOrder (get_scores (docs.map tokenize) (tokenize q)) :=
        (mem_sortD _ _ i).2 (List.mem_range.2 hi)
      have hno := List.filter_eq_nil_iff.1 hnil i hmem
      have hle : ¬0 < bmScore (get_scores (docs.map tokenize) (tokenize q)) i := by
        simpa using hno
      exact le_antisymm (not_lt.1 hle) (get_scores_nonneg _ _ i)

theorem claim_C5_witness :
    (HybridSearch.init ["a b", "c"]).search (fun _ _ => []) "c" 1 (1/2) =
      (lexPosRanking (get_scores (["a b", "c"].map tokenize) (tokenize "c"))).take 1 ∧
    ((HybridSearch.init ["a b", "c"]).search (fun _ _ => []) "c" 1 (1/2) = [] →
      ∀ i < (get_scores (["a b", "c"].map tokenize) (tokenize "c")).length,
        bmScore (get_scores (["a b", "c"].map tokenize) (tokenize "c")) i = 0) :=
  claim_C5 ["a b", "c"] "c" 1 (1/2) (by norm_num) (by norm_num) (by norm_num)

/-- C6: over an empty corpus the modelled lexical index returns the empty
score structure without raising, and `search` with a working vector adapter
returns exactly the vector-only ranking (truncated to `k`; distinct ids and a
nonnegative blend weight keep the decreasing vector credits in order). -/
theorem claim_C6 (vq : String → ℕ → List VecResult) (q : String) (k : ℕ)
    (alpha : ℚ) (h0 : 0 ≤ alpha)
    (hv : ((vq q (k * 2)).filterMap (fun r => r.id)).Nodup) :
    get_scores (HybridSearch.init []).corpusTok (tokenize q) = [] ∧
    (HybridSearch.init []).search vq q k alpha =
      (vecOnlyRanking (vq q (k * 2))).take k := by
  refine ⟨rfl, ?_⟩
  show fuse_results (vq q (k * 2)) [] k alpha 60 = _
  exact fuse_bm_empty _ k h0 hv

theorem claim_C6_witness :
    get_scores (HybridSearch.init []).corpusTok (tokenize "x") = [] ∧
    (HybridSearch.init []).search (fun _ _ => [⟨some 3, some 1⟩]) "x" 1 (1/2) =
      (vecOnlyRanking ((fun (_ : String) (_ : ℕ) =>
        [(⟨some 3, some 1⟩ : VecResult)]) "x" (1 * 2))).take 1 :=
  claim_C6 (fun _ _ => [⟨some 3, some 1⟩]) "x" 1 (1/2) (by norm_num) (by decide)

/-- C7: the claim says an unmappable vector-backend id is dropped from fusion
under a count-and-continue policy and never makes the query raise.  The code
does neither: in `ChromaVectorDB.query`, an id containing `"_"` whose
post-underscore piece is not numeric makes `int(...)` raise `ValueError`
(modelled as `Except.error`), aborting the whole query, and an id without
`"_"` is silently remapped to its enumeration index rather than dropped.
This theorem evaluates the embedded normalization loop at both failing
inputs. -/
theorem claim_C7 :
    ChromaVectorDB.normalize ["doc_x".toList] [] =
      Except.error "doc_x".toList ∧
    ChromaVectorDB.normalize ["foo".toList] [] =
      Except.ok [⟨some 0, some 0⟩] := by
  constructor
  · decide
  · decide

/-- C8: `search` is a pure function of the init-time corpus, the query, the
parameters and the vector backend's response — the embedding carries no other
state and `search` mutates nothing — so two calls whose backend responses
agree return identical ordered id lists. -/
theorem claim_C8 (docs : List String) (va vb : String → ℕ → List VecResult)
    (q : String) (k : ℕ) (alpha : ℚ) (h : va q (k * 2) = vb q (k * 2)) :
    (HybridSearch.init docs).search va q k alpha =
      (HybridSearch.init docs).search vb q k alpha := by
  rw [HybridSearch.search, HybridSearch.search, h]

theorem claim_C8_witness :
    (HybridSearch.init ["a"]).search (fun _ _ => []) "q" 3 (1/2) =
      (HybridSearch.init ["a"]).search (fun _ _ => []) "q" 3 (1/2) :=
  claim_C8 ["a"] (fun _ _ => []) (fun _ _ => []) "q" 3 (1/2) rfl

/-- C9: the list returned by both `fuse_results` and `search` has length at
most `k`, for every input. -/
theorem claim_C9 (vr : List VecResult) (bm : List ℚ) (k : ℕ)
    (alpha rrf_k : ℚ) (docs : List String)
    (vq : String → ℕ → List VecResult) (q : String) :
    (fuse_results vr bm k alpha rrf_k).length ≤ k ∧
    ((HybridSearch.init docs).search vq q k alpha).length ≤ k := by
  constructor
  · rw [fuse_results, List.length_map]
    exact List.length_take_le k _
  · rw [HybridSearch.search, fuse_results, List.length_map]
    exact List.length_take_le k _

/-- C10 (implicit): duplicate occurrences of the same id in the vector
results each add their own rank-based RRF term — the accumulated score is the
sum over all occurrences plus the lexical credit — so with two occurrences
the id's fused score strictly exceeds the single credit of its best
occurrence alone. -/
theorem claim_C10 (vr : List VecResult) (bm : List ℚ) (alpha rrf_k : ℚ)
    (d : ℤ) (pre mid post : List VecResult) (res1 res2 : VecResult)
    (hsplit : sortA distOf vr = pre ++ res1 :: (mid ++ res2 :: post))
    (h1 : res1.id = some d) (h2 : res2.id = some d) (ha : 0 < alpha)
    (ha2 : alpha ≤ 1) (hρ : 0 ≤ rrf_k) :
    sval (fusedMap vr bm alpha rrf_k) d =
      vContribFrom alpha rrf_k 0 (sortA distOf vr) d +
        bContribFrom alpha rrf_k (bmScore bm) 0 (lexOrder bm) d ∧
    alpha * (1 / (rrf_k + (pre.length : ℚ) + 1)) <
      sval (fusedMap vr bm alpha rrf_k) d := by
  refine ⟨sval_fusedMap vr bm alpha rrf_k d, ?_⟩
  rw [sval_fusedMap, hsplit, vContribFrom_append, vContribFrom,
    vContribFrom_append, vContribFrom, if_pos h1, if_pos h2]
  have hA := vContribFrom_nonneg ha.le hρ pre 0 d
  have hB := vContribFrom_nonneg ha.le hρ mid (0 + pre.length + 1) d
  have hC := vContribFrom_nonneg ha.le hρ post
    (0 + pre.length + 1 + mid.length + 1) d
  have hD := bContribFrom_nonneg ha2 hρ (bmScore bm) (lexOrder bm) 0 d
  have ht2 : 0 < alpha *
      (1 / (rrf_k + ((0 + pre.length + 1 + mid.length : ℕ) : ℚ) + 1)) :=
    mul_pos ha (rrf_term_pos hρ _)
  have hcast : ((0 + pre.length : ℕ) : ℚ) = (pre.length : ℚ) := by
    push_cast
    ring
  rw [hcast]
  linarith

theorem claim_C10_witness :
    sval (fusedMap [⟨some 7, some 1⟩, ⟨some 7, some 2⟩] [] (1/2) 60) 7 =
      vContribFrom (1/2) 60 0
        (sortA distOf [⟨some 7, some 1⟩, ⟨some 7, some 2⟩]) 7 +
        bContribFrom (1/2) 60 (bmScore []) 0 (lexOrder []) 7 ∧
    (1/2) * (1 / (60 + ((([] : List VecResult).length : ℕ) : ℚ) + 1)) <
      sval (fusedMap [⟨some 7, some 1⟩, ⟨some 7, some 2⟩] [] (1/2) 60) 7 :=
  claim_C10 [⟨some 7, some 1⟩, ⟨some 7, some 2⟩] [] (1/2) 60 7 [] []
    [] ⟨some 7, some 1⟩ ⟨some 7, some 2⟩ rfl rfl rfl (by norm_num)
    (by norm_num) (by norm_num)

end Catalog
